import Mathlib

/-!
# Verification of the CPM scheduling engine (`project_calculations.py`)

Shallow embedding of the `ScheduleCalculator` / `ProductivityCalculator`
classes. Python unbounded integers are modelled as `Int`, Python floats as
exact rationals `ℚ` (the spec's claims explicitly bless rational modelling),
calendar dates as integer day numbers (the `datetime` + `timedelta(days=k)`
arithmetic used by the code is exact day arithmetic, and `strftime('%Y-%m-%d')`
is a strictly monotone injection from day numbers to the formatted strings on
the supported year range, so key equality and string sorting coincide with
integer equality and sorting on day numbers).

The mutable `self.activities` list is modelled by explicit state passing:
each loop of `calculate_cpm` is a fold over indices that reads the whole
current list (exactly as the Python code's linear scans do) and writes one
element back with `List.set`.
-/

/-- One activity record, as built by `ScheduleCalculator.add_activity`:
the four caller-supplied fields plus the six computed fields that
`add_activity` initialises to `0` / `False`. -/
structure Activity where
  id : Int
  name : String
  duration : Int
  predecessors : List Int
  early_start : Int
  early_finish : Int
  late_start : Int
  late_finish : Int
  slack : Int
  is_critical : Bool
deriving Repr, DecidableEq

/-- `ScheduleCalculator.add_activity`: appends a fresh record (computed
fields zeroed) to the engine's activity list. -/
def add_activity (s : List Activity) (aid : Int) (nm : String) (dur : Int)
    (preds : List Int) : List Activity :=
  s ++ [⟨aid, nm, dur, preds, 0, 0, 0, 0, 0, false⟩]

/-- `next((a for a in self.activities if a['id'] == pred_id), None)`:
first activity in the current list with the given id. -/
def findActivity (s : List Activity) (pid : Int) : Option Activity :=
  s.find? (fun a => a.id == pid)

/-- The body of the `for pred_id in activity['predecessors']` loop:
`max_finish = max(max_finish, pred['early_finish'])` when the lookup
succeeds, and no update when the predecessor id resolves to nothing. -/
def mfStep (s : List Activity) (m : Int) (p : Int) : Int :=
  match findActivity s p with
  | some b => max m b.early_finish
  | none => m

/-- The `max_finish` accumulation of the forward pass: starts at `0`,
takes `max` with `pred['early_finish']` for each predecessor id that
resolves, and skips ids with no matching activity. -/
def maxFinish (s : List Activity) (preds : List Int) : Int :=
  preds.foldl (mfStep s) 0

/-- One iteration of the forward-pass `for` loop, acting on index `i` of
the current list (out-of-range `i` is a no-op; `forwardPass` only calls it
in range). -/
def fwdStep (s : List Activity) (i : Nat) : List Activity :=
  match s[i]? with
  | none => s
  | some a =>
    let es := if a.predecessors.isEmpty then 0 else maxFinish s a.predecessors
    s.set i { a with early_start := es, early_finish := es + a.duration }

/-- Runs `k` forward-pass iterations starting at index `i`. -/
def fwdSteps : Nat → Nat → List Activity → List Activity
  | 0, _, s => s
  | k+1, i, s => fwdSteps k (i+1) (fwdStep s i)

/-- The forward pass: `for activity in self.activities: ...` in insertion
order, mutating the list in place. -/
def forwardPass (s : List Activity) : List Activity := fwdSteps s.length 0 s

/-- `max(a['early_finish'] for a in self.activities)` — `none` models the
`ValueError` Python's `max` raises on an empty sequence. -/
def maxEarlyFinish : List Activity → Option Int
  | [] => none
  | a :: rest => some (rest.foldl (fun m b => max m b.early_finish) a.early_finish)

/-- `[a for a in self.activities if activity['id'] in a['predecessors']]`. -/
def successorsOf (s : List Activity) (aid : Int) : List Activity :=
  s.filter (fun b => b.predecessors.contains aid)

/-- `min(succ['late_start'] for succ in successors)` over a non-empty list. -/
def minLateStart (x : Activity) (xs : List Activity) : Int :=
  xs.foldl (fun m b => min m b.late_start) x.late_start

/-- One iteration of the backward-pass `for` loop at index `i`. -/
def bwdStep (pd : Int) (s : List Activity) (i : Nat) : List Activity :=
  match s[i]? with
  | none => s
  | some a =>
    let lf := match successorsOf s a.id with
      | [] => pd
      | x :: xs => minLateStart x xs
    let ls := lf - a.duration
    let sl := ls - a.early_start
    s.set i { a with late_finish := lf, late_start := ls, slack := sl,
                     is_critical := sl == 0 }

/-- Runs `k` backward-pass iterations with the index counting down from `i`. -/
def bwdSteps : Nat → Nat → Int → List Activity → List Activity
  | 0, _, _, s => s
  | k+1, i, pd, s => bwdSteps k (i-1) pd (bwdStep pd s i)

/-- The backward pass: `for activity in reversed(self.activities): ...`. -/
def backwardPass (pd : Int) (s : List Activity) : List Activity :=
  bwdSteps s.length (s.length - 1) pd s

/-- The one exception `calculate_cpm` can raise: the `ValueError` from
`max()` over the empty `early_finish` sequence when no activity was added. -/
inductive CPMError where
  | emptyMax
deriving Repr, DecidableEq

/-- The dictionary returned by `calculate_cpm`. -/
structure CPMResult where
  activities : List Activity
  project_duration : Int
  critical_path : List Int
  critical_activities : List Activity
deriving Repr, DecidableEq

/-- `ScheduleCalculator.calculate_cpm`: forward pass, project duration,
backward pass, critical-path extraction. -/
def calculate_cpm (s : List Activity) : Except CPMError CPMResult :=
  let fwd := forwardPass s
  match maxEarlyFinish fwd with
  | none => Except.error CPMError.emptyMax
  | some pd =>
    let fin := backwardPass pd fwd
    Except.ok { activities := fin
              , project_duration := pd
              , critical_path := (fin.filter (fun a => a.is_critical)).map (fun a => a.id)
              , critical_activities := fin.filter (fun a => a.is_critical) }

/-- One record of `generate_gantt_data`'s output (dates as day numbers). -/
structure GanttRecord where
  id : Int
  name : String
  start_date : Int
  end_date : Int
  duration : Int
  is_critical : Bool
  slack : Int
  predecessors : List Int
deriving Repr, DecidableEq

/-- `ScheduleCalculator.generate_gantt_data`: a pure projection of the
activity list; it reads the computed fields but writes nothing back. -/
def generate_gantt_data (s : List Activity) (start_date : Int) : List GanttRecord :=
  s.map (fun a =>
    { id := a.id
    , name := a.name
    , start_date := start_date + a.early_start
    , end_date := start_date + a.early_finish
    , duration := a.duration
    , is_critical := a.is_critical
    , slack := a.slack
    , predecessors := a.predecessors })

/-- Python's `round` with `ndigits`, on exact rationals: round half to even
(banker's rounding), as Python's `round` does. -/
def roundHalfEven (q : ℚ) : Int :=
  let f := ⌊q⌋
  let r := q - (f : ℚ)
  if r < 1/2 then f
  else if 1/2 < r then f + 1
  else if f % 2 = 0 then f else f + 1

/-- `round(x, d)` over exact rationals. -/
def pyRound (q : ℚ) (d : Nat) : ℚ :=
  (roundHalfEven (q * (10:ℚ)^d) : ℚ) / (10:ℚ)^d

/-- The view of an activity dictionary that `calculate_s_curve` reads:
`cost`, `duration` and the already-computed `early_start`. -/
structure SActivity where
  cost : ℚ
  duration : Int
  early_start : Int
deriving Repr, DecidableEq

/-- One record of the S-curve series. -/
structure CurvePoint where
  date : Int
  daily_cost : ℚ
  cumulative_cost : ℚ
  percentage : ℚ
deriving Repr, DecidableEq

/-- `daily_costs[date] += c`, creating the key with `0` first when absent —
a Python dict update modelled on an insertion-ordered association list. -/
def dictAdd (m : List (Int × ℚ)) (d : Int) (c : ℚ) : List (Int × ℚ) :=
  if m.any (fun p => p.1 == d) then
    m.map (fun p => if p.1 == d then (p.1, p.2 + c) else p)
  else m ++ [(d, c)]

/-- The inner `for day in range(duration)` loop of `calculate_s_curve`,
spreading one activity's per-day cost over its days. -/
def addActivityDays (m : List (Int × ℚ)) (astart : Int) (cpd : ℚ) (days : Nat) :
    List (Int × ℚ) :=
  (List.range days).foldl (fun acc day => dictAdd acc (astart + day) cpd) m

/-- The `daily_costs` dictionary after the outer loop over all activities. -/
def dailyCosts (acts : List SActivity) (start : Int) : List (Int × ℚ) :=
  acts.foldl (fun m a =>
    addActivityDays m (start + a.early_start) (a.cost / (a.duration : ℚ))
      a.duration.toNat) []

/-- The accumulation loop `for date_str in sorted(daily_costs.keys())`. -/
def sCurveLoop : List Int → List (Int × ℚ) → ℚ → ℚ → List CurvePoint
  | [], _, _, _ => []
  | d :: rest, m, cum, total =>
    let dc := (m.lookup d).getD 0
    let cum' := cum + dc
    let pct := if 0 < total then cum' / total * 100 else 0
    { date := d
    , daily_cost := pyRound dc 2
    , cumulative_cost := pyRound cum' 2
    , percentage := pyRound pct 2 } :: sCurveLoop rest m cum' total

/-- `ProductivityCalculator.calculate_s_curve`. -/
def calculate_s_curve (acts : List SActivity) (start : Int) : List CurvePoint :=
  let total := acts.foldl (fun t a => t + a.cost) 0
  let m := dailyCosts acts start
  sCurveLoop ((m.map Prod.fst).mergeSort (fun a b => decide (a ≤ b))) m 0 total

/-- The dictionary returned by `calculate_progress_metrics`. -/
structure ProgressMetrics where
  cost_variance : ℚ
  schedule_variance : ℚ
  cost_performance_index : ℚ
  schedule_performance_index : ℚ
  budget_efficiency : ℚ
  schedule_efficiency : ℚ
deriving Repr, DecidableEq

/-- `ProductivityCalculator.calculate_progress_metrics` (EVM metrics). -/
def calculate_progress_metrics (planned_cost actual_cost earned_value : ℚ) :
    ProgressMetrics :=
  let cost_variance := earned_value - actual_cost
  let schedule_variance := earned_value - planned_cost
  let cost_performance_index :=
    if 0 < actual_cost then earned_value / actual_cost else 0
  let schedule_performance_index :=
    if 0 < planned_cost then earned_value / planned_cost else 0
  { cost_variance := pyRound cost_variance 2
  , schedule_variance := pyRound schedule_variance 2
  , cost_performance_index := pyRound cost_performance_index 3
  , schedule_performance_index := pyRound schedule_performance_index 3
  , budget_efficiency := pyRound (cost_performance_index * 100 - 100) 1
  , schedule_efficiency := pyRound (schedule_performance_index * 100 - 100) 1 }

/-! ## Example schedules used as witnesses and counterexamples -/

/-- An activity added before its own predecessor (`B` depends on `A`, but
`B` is inserted first). -/
def exOut : List Activity :=
  add_activity (add_activity [] 2 "B" 2 [1]) 1 "A" 3 []

/-- A two-activity cyclic dependency (`A` needs `B`, `B` needs `A`). -/
def exCyc : List Activity :=
  add_activity (add_activity [] 1 "A" 2 [2]) 2 "B" 3 [1]

/-- A cyclic collection that also contains a self-referencing activity. -/
def exSelfCyc : List Activity :=
  add_activity exCyc 3 "C" 1 [3]

/-- The P1 linear chain from the spec: A(3) → B(2,[A]) → C(4,[B]). -/
def exChain : List Activity :=
  add_activity (add_activity (add_activity [] 1 "A" 3 []) 2 "B" 2 [1]) 3 "C" 4 [2]

/-- The P2 diamond from the spec: A(3), B(5,[A]), C(2,[A]), D(1,[B,C]). -/
def exDiamond : List Activity :=
  add_activity (add_activity (add_activity (add_activity [] 1 "A" 3 [])
    2 "B" 5 [1]) 3 "C" 2 [1]) 4 "D" 1 [2, 3]

/-- A single activity whose only predecessor id (99) matches no activity. -/
def exDangling : List Activity :=
  add_activity (add_activity [] 1 "A" 3 [99]) 2 "B" 2 [1]

/-! ## Auxiliary definitions for the specification and the proofs -/

/-- The maximum of a list of integers, `0` when the list is empty — the
spec's "maximum of `early_finish` over the predecessor activities (0 if
that set is empty)". -/
def maxOr0 : List Int → Int
  | [] => 0
  | x :: xs => xs.foldl max x

/-- The activities of `base` whose id appears in `a`'s predecessor list —
the spec's predecessor set of a node. -/
def predActs (base : List Activity) (a : Activity) : List Activity :=
  base.filter (fun b => a.predecessors.contains b.id)

/-- Fuel-indexed longest-path value used to state the forward pass in
closed form: `crefEF f a` clamps the predecessor maximum at `0` exactly as
the code's `max_finish` accumulator does.  On order-consistent collections
the value is independent of the fuel once `fuel` exceeds the activity's
index (see `crefEF_stable`). -/
def crefEF (base : List Activity) : Nat → Activity → Int
  | 0, a => a.duration
  | f+1, a => ((predActs base a).map (crefEF base f)).foldl max 0 + a.duration

/-- The early-start companion of `crefEF`. -/
def crefES (base : List Activity) (f : Nat) (a : Activity) : Int :=
  ((predActs base a).map (crefEF base f)).foldl max 0

/-- Modelled from the spec's words: the recursive longest-path reference
definition of CPM early times — `early_finish(a) = max over predecessors p
of early_finish(p) (0 if none) + duration(a)` — written with fuel so that it
is total; on a DAG consistent with insertion order the fuel is irrelevant
once it exceeds the activity's index. -/
def refEF (base : List Activity) : Nat → Activity → Int
  | 0, a => a.duration
  | f+1, a => maxOr0 ((predActs base a).map (refEF base f)) + a.duration

/-- The early-start companion of `refEF`: the spec's
"`early_start = max(early_finish of predecessors, else 0)`". -/
def refES (base : List Activity) (f : Nat) (a : Activity) : Int :=
  maxOr0 ((predActs base a).map (refEF base f))

/-- The caller-supplied part of an activity that the CPM passes read but
never write: id, predecessor list and duration. -/
structure BaseView where
  id : Int
  predecessors : List Int
  duration : Int
deriving Repr, DecidableEq

def baseView (a : Activity) : BaseView :=
  ⟨a.id, a.predecessors, a.duration⟩

def predViews (vs : List BaseView) (v : BaseView) : List BaseView :=
  vs.filter (fun b => v.predecessors.contains b.id)

/-- `crefEF` transported to base views: shows the closed form depends only
on ids, predecessor lists and durations. -/
def vrefEF (vs : List BaseView) : Nat → BaseView → Int
  | 0, v => v.duration
  | f+1, v => ((predViews vs v).map (vrefEF vs f)).foldl max 0 + v.duration

/-- The fields of an activity left untouched by the backward pass: the
base fields together with the early times the forward pass computed. -/
structure EarlyView where
  id : Int
  name : String
  duration : Int
  predecessors : List Int
  early_start : Int
  early_finish : Int
deriving Repr, DecidableEq

def earlyView (a : Activity) : EarlyView :=
  ⟨a.id, a.name, a.duration, a.predecessors, a.early_start, a.early_finish⟩

/-- Ids are unique within one schedule (§3 data-model invariant). -/
def NodupIds (s : List Activity) : Prop :=
  (s.map (fun a => a.id)).Nodup

instance (s : List Activity) : Decidable (NodupIds s) := by
  unfold NodupIds
  infer_instance

/-- Every predecessor was added (via `add_activity`) before each of its
dependents: any activity whose id appears in the predecessor list of the
activity at position `i` sits at a position `j < i`.  This is the claim's
"DAG consistent with insertion order" hypothesis. -/
def OrderConsistent (s : List Activity) : Prop :=
  ∀ i, ∀ hi : i < s.length, ∀ j, ∀ hj : j < s.length,
    (s.get ⟨j, hj⟩).id ∈ (s.get ⟨i, hi⟩).predecessors → j < i

instance (s : List Activity) : Decidable (OrderConsistent s) := by
  unfold OrderConsistent
  infer_instance

/-- The value the forward pass leaves at each position of an
order-consistent collection (proved in `forwardPass_eq`). -/
def fwdTarget (base : List Activity) (a : Activity) : Activity :=
  { a with early_start := crefES base base.length a
         , early_finish := crefES base base.length a + a.duration }

/-- Erases every occurrence of the predecessor id `p` from an activity's
predecessor list (used to state that a dangling id behaves as if absent). -/
def scrubPred (p : Int) (a : Activity) : Activity :=
  { a with predecessors := a.predecessors.filter (fun q => !(q == p)) }

/-- The state of the activity list after the forward pass has processed the
first `i` activities: positions before `i` carry their final early times,
positions from `i` on are still as inserted. -/
def fwdMixed (base : List Activity) (i : Nat) : List Activity :=
  (base.take i).map (fwdTarget base) ++ base.drop i

/-- A one-activity input for the S-curve: its cost `1/1000` vanishes under
the 2-decimal rounding of the cumulative cost. -/
def exS : List SActivity :=
  [{ cost := 1/1000, duration := 1, early_start := 0 }]

/-! ## Basic structural lemmas -/

theorem length_fwdStep (s : List Activity) (i : Nat) :
    (fwdStep s i).length = s.length := by
  unfold fwdStep
  split
  · rfl
  · simp

theorem length_fwdSteps : ∀ k i s, (fwdSteps k i s).length = s.length
  | 0, _, _ => rfl
  | k+1, i, s => by
    rw [fwdSteps, length_fwdSteps k, length_fwdStep]

theorem length_forwardPass (s : List Activity) :
    (forwardPass s).length = s.length :=
  length_fwdSteps _ _ _

theorem length_bwdStep (pd : Int) (s : List Activity) (i : Nat) :
    (bwdStep pd s i).length = s.length := by
  unfold bwdStep
  split
  · rfl
  · simp

theorem length_bwdSteps : ∀ k i pd s, (bwdSteps k i pd s).length = s.length
  | 0, _, _, _ => rfl
  | k+1, i, pd, s => by
    rw [bwdSteps, length_bwdSteps k, length_bwdStep]

theorem length_backwardPass (pd : Int) (s : List Activity) :
    (backwardPass pd s).length = s.length :=
  length_bwdSteps _ _ _ _

theorem cpm_ok_of_ne_nil (s : List Activity) (h : s ≠ []) :
    ∃ r, calculate_cpm s = Except.ok r := by
  have hl : (forwardPass s).length = s.length := length_forwardPass s
  have hne : forwardPass s ≠ [] := by
    intro hnil
    rw [hnil] at hl
    exact h (List.eq_nil_of_length_eq_zero hl.symm)
  obtain ⟨a, rest, hcons⟩ := List.exists_cons_of_ne_nil hne
  have hmax : ∃ v, maxEarlyFinish (forwardPass s) = some v := by
    rw [hcons]; exact ⟨_, rfl⟩
  obtain ⟨v, hv⟩ := hmax
  refine ⟨{ activities := backwardPass v (forwardPass s)
          , project_duration := v
          , critical_path := ((backwardPass v (forwardPass s)).filter
              (fun a => a.is_critical)).map (fun a => a.id)
          , critical_activities := (backwardPass v (forwardPass s)).filter
              (fun a => a.is_critical) }, ?_⟩
  simp only [calculate_cpm, hv]

/-! ## C2: behavior on the empty collection -/

/-- C2 counterexample: on an empty collection `calculate_cpm` does not
return the well-formed empty result the claim describes (it raises). -/
theorem cpm_empty_not_ok :
    ¬ ∃ r, calculate_cpm [] = Except.ok r := by
  rintro ⟨r, h⟩
  rw [show calculate_cpm [] = Except.error CPMError.emptyMax from rfl] at h
  exact Except.noConfusion h

/-- C2 (amended): with no activities added, `calculate_cpm` raises — the
`max()` over the empty `early_finish` sequence throws `ValueError` — instead
of returning an empty well-formed result. -/
theorem cpm_empty_raises :
    calculate_cpm [] = Except.error CPMError.emptyMax := rfl

/-! ## C3: no cycle detection -/

/-- C3 counterexample: on a concrete cyclic collection, `calculate_cpm`
produces a result rather than failing with any error. -/
theorem cpm_cycle_produces_result :
    ∃ r, calculate_cpm exCyc = Except.ok r := ⟨_, rfl⟩

/-- C3 (amended): `calculate_cpm` performs no cycle detection and defines no
`InvalidScheduleError`; on any non-empty collection — cyclic or not — it
never fails with an error, and instead runs both passes and returns a
result. -/
theorem cpm_never_errors_on_nonempty (s : List Activity) (h : s ≠ [])
    (e : CPMError) : calculate_cpm s ≠ Except.error e := by
  obtain ⟨r, hr⟩ := cpm_ok_of_ne_nil s h
  rw [hr]
  exact fun hc => Except.noConfusion hc

theorem cpm_never_errors_on_nonempty_witness :
    exCyc ≠ [] ∧ calculate_cpm exCyc ≠ Except.error CPMError.emptyMax :=
  ⟨by decide, cpm_never_errors_on_nonempty exCyc (by decide) CPMError.emptyMax⟩

/-! ## C10: termination and totality on arbitrary (even cyclic) input -/

/-- C10: the two passes are bounded loops over the list, so `calculate_cpm`
terminates and returns a result on every non-empty collection, including
cyclic and self-referencing ones (the embedding is total by construction,
mirroring the code's bounded `for` loops; this theorem states that the only
exception path — the empty `max()` — is not taken). -/
theorem cpm_total (s : List Activity) (h : s ≠ []) :
    ∃ r, calculate_cpm s = Except.ok r :=
  cpm_ok_of_ne_nil s h

theorem cpm_total_witness :
    exSelfCyc ≠ [] ∧ ∃ r, calculate_cpm exSelfCyc = Except.ok r :=
  ⟨by decide, cpm_total exSelfCyc (by decide)⟩

/-! ## C7: Gantt re-anchoring -/

/-- C7: `generate_gantt_data` is a pure projection (it is a function of the
activity list and start date, mutating nothing), and changing the start date
from `d1` to `d2` shifts every record's `start_date` and `end_date` by
exactly `d2 - d1`, leaving id, name, duration, slack, criticality and
predecessors untouched. -/
theorem gantt_reanchor (s : List Activity) (d1 d2 : Int) :
    generate_gantt_data s d2 = (generate_gantt_data s d1).map
      (fun r => { r with start_date := r.start_date + (d2 - d1)
                       , end_date := r.end_date + (d2 - d1) }) := by
  unfold generate_gantt_data
  rw [List.map_map]
  apply List.map_congr_left
  intro a _
  simp only [Function.comp]
  congr 1 <;> omega

/-! ## C9: EVM metrics -/

/-- C9 counterexample: for a negative actual cost the code returns a CPI of
`0`, while the claim's formula (`EV / AC`, `0` only when `AC == 0`) gives a
nonzero value: at planned=1000, actual=-900, earned=950 the claimed value is
950 / (-900) ≠ 0. -/
theorem progress_metrics_negative_ac :
    (calculate_progress_metrics 1000 (-900) 950).cost_performance_index = 0 ∧
    (950 : ℚ) / (-900) ≠ 0 := by
  constructor
  · exact of_decide_eq_true (by with_unfolding_all rfl)
  · norm_num

/-- C9 (amended): the variances are `EV - AC` and `EV - PV` rounded to two
decimals; the performance indices use a strictly-positive guard (`EV / AC`
when `AC > 0`, else `0`; likewise for PV), rounded to three decimals; and
the spec's P7 instance (planned=1000, actual=900, earned=950) yields
cost_variance = 50, schedule_variance = -50, CPI = 1.056, SPI = 0.95. -/
theorem progress_metrics_spec (p a e : ℚ) :
    (calculate_progress_metrics p a e).cost_variance = pyRound (e - a) 2 ∧
    (calculate_progress_metrics p a e).schedule_variance = pyRound (e - p) 2 ∧
    (calculate_progress_metrics p a e).cost_performance_index =
      (if 0 < a then pyRound (e / a) 3 else 0) ∧
    (calculate_progress_metrics p a e).schedule_performance_index =
      (if 0 < p then pyRound (e / p) 3 else 0) ∧
    calculate_progress_metrics 1000 900 950 =
      { cost_variance := 50
      , schedule_variance := -50
      , cost_performance_index := 132/125
      , schedule_performance_index := 19/20
      , budget_efficiency := 28/5
      , schedule_efficiency := -5 } := by
  have hz : pyRound 0 3 = 0 := of_decide_eq_true (by with_unfolding_all rfl)
  refine ⟨rfl, rfl, ?_, ?_, of_decide_eq_true (by with_unfolding_all rfl)⟩
  · by_cases h : 0 < a
    · simp [calculate_progress_metrics, h]
    · simp [calculate_progress_metrics, h, hz]
  · by_cases h : 0 < p
    · simp [calculate_progress_metrics, h]
    · simp [calculate_progress_metrics, h, hz]

/-! ## C4 counterexample: `calculate_cpm` is not idempotent in general -/

/-- C4 counterexample: on `exOut` (a dependent inserted before its
predecessor) running `calculate_cpm` a second time on the engine's mutated
state yields different computed fields than the first run (the second
forward pass reads the first run's `early_finish` instead of the stale 0). -/
theorem cpm_not_idempotent :
    ((calculate_cpm exOut).toOption.bind
        (fun r => (calculate_cpm r.activities).toOption)) ≠
      (calculate_cpm exOut).toOption := by decide

/-! ## Fold/max toolkit -/

theorem foldl_max_init_le : ∀ (l : List Int) (init : Int), init ≤ l.foldl max init
  | [], _ => le_refl _
  | x :: xs, init =>
    le_trans (le_max_left init x) (foldl_max_init_le xs (max init x))

theorem le_foldl_max_of_mem : ∀ (l : List Int) (x : Int), x ∈ l →
    ∀ init, x ≤ l.foldl max init
  | y :: xs, x, hx, init => by
    rcases List.mem_cons.mp hx with h | h
    · subst h
      exact le_trans (le_max_right init x) (foldl_max_init_le xs (max init x))
    · exact le_foldl_max_of_mem xs x h (max init y)

theorem foldl_max_le : ∀ (l : List Int) (init c : Int), init ≤ c →
    (∀ x ∈ l, x ≤ c) → l.foldl max init ≤ c
  | [], _, _, h0, _ => h0
  | x :: xs, init, c, h0, h => by
    refine foldl_max_le xs (max init x) c
      (max_le h0 (h x (List.mem_cons_self x xs))) ?_
    intro y hy
    exact h y (List.mem_cons_of_mem x hy)

theorem maxOr0_eq_foldl (l : List Int) (h : ∀ x ∈ l, 0 ≤ x) :
    maxOr0 l = l.foldl max 0 := by
  cases l with
  | nil => rfl
  | cons x xs =>
    show xs.foldl max x = xs.foldl max (max 0 x)
    rw [max_eq_right (h x (List.mem_cons_self x xs))]

theorem maxOr0_nonneg (l : List Int) (h : ∀ x ∈ l, 0 ≤ x) : 0 ≤ maxOr0 l := by
  cases l with
  | nil => exact le_refl 0
  | cons x xs =>
    exact le_trans (h x (List.mem_cons_self x xs)) (foldl_max_init_le xs x)

theorem mfStep_le (s : List Activity) (m p : Int) : m ≤ mfStep s m p := by
  unfold mfStep
  split
  · exact le_max_left _ _
  · exact le_refl _

theorem foldl_mfStep_init_le : ∀ (preds : List Int) (s : List Activity) (init : Int),
    init ≤ preds.foldl (mfStep s) init
  | [], _, _ => le_refl _
  | p :: ps, s, init =>
    le_trans (mfStep_le s init p) (foldl_mfStep_init_le ps s (mfStep s init p))

theorem foldl_mfStep_le : ∀ (preds : List Int) (s : List Activity) (init c : Int),
    init ≤ c →
    (∀ p ∈ preds, ∀ b, findActivity s p = some b → b.early_finish ≤ c) →
    preds.foldl (mfStep s) init ≤ c
  | [], _, _, _, h0, _ => h0
  | p :: ps, s, init, c, h0, h => by
    refine foldl_mfStep_le ps s (mfStep s init p) c ?_ ?_
    · unfold mfStep
      split
      · rename_i b heq
        exact max_le h0 (h p (List.mem_cons_self p ps) b heq)
      · exact h0
    · intro q hq b hb
      exact h q (List.mem_cons_of_mem p hq) b hb

theorem found_le_foldl_mfStep : ∀ (preds : List Int) (s : List Activity)
    (p : Int) (b : Activity), p ∈ preds → findActivity s p = some b →
    ∀ init, b.early_finish ≤ preds.foldl (mfStep s) init
  | q :: ps, s, p, b, hp, hb, init => by
    rcases List.mem_cons.mp hp with h | h
    · subst h
      have h1 : b.early_finish ≤ mfStep s init p := by
        unfold mfStep
        rw [hb]
        exact le_max_right _ _
      exact le_trans h1 (foldl_mfStep_init_le ps s _)
    · exact found_le_foldl_mfStep ps s p b h hb _

/-! ## `findActivity` lemmas -/

theorem findActivity_mem {s : List Activity} {p : Int} {b : Activity}
    (h : findActivity s p = some b) : b ∈ s ∧ b.id = p := by
  unfold findActivity at h
  refine ⟨List.mem_of_find?_eq_some h, ?_⟩
  have hp := List.find?_some h
  simp only [beq_iff_eq] at hp
  exact hp

theorem findActivity_nodup (s : List Activity) (hnd : NodupIds s) :
    ∀ j, ∀ hj : j < s.length,
      findActivity s ((s.get ⟨j, hj⟩).id) = some (s.get ⟨j, hj⟩) := by
  induction s with
  | nil =>
    intro j hj
    simp at hj
  | cons x xs IH =>
    have hnd' := List.nodup_cons.mp hnd
    intro j hj
    cases j with
    | zero =>
      show List.find? (fun a => a.id == x.id) (x :: xs) = some x
      rw [List.find?_cons]
      simp
    | succ j =>
      have hj' : j < xs.length := by simpa using hj
      show List.find? (fun a => a.id == (xs.get ⟨j, hj'⟩).id) (x :: xs) =
        some (xs.get ⟨j, hj'⟩)
      rw [List.find?_cons]
      have hne : (x.id == (xs.get ⟨j, hj'⟩).id) = false := by
        rw [beq_eq_false_iff_ne]
        intro hcontra
        apply hnd'.1
        show x.id ∈ List.map (fun a => a.id) xs
        rw [hcontra]
        exact List.mem_map_of_mem (fun a => a.id) (List.get_mem xs j hj')
      simp only [hne]
      exact IH hnd'.2 j hj'

/-! ## Reference-function lemmas -/

theorem contains_int_iff (l : List Int) (x : Int) : l.contains x = true ↔ x ∈ l :=
  List.elem_iff

theorem crefEF_eq_vrefEF (base : List Activity) :
    ∀ f a, crefEF base f a = vrefEF (base.map baseView) f (baseView a)
  | 0, _ => rfl
  | f+1, a => by
    show ((predActs base a).map (crefEF base f)).foldl max 0 + a.duration =
      ((predViews (base.map baseView) (baseView a)).map
        (vrefEF (base.map baseView) f)).foldl max 0 + (baseView a).duration
    have hview : predViews (base.map baseView) (baseView a) =
        (predActs base a).map baseView := by
      unfold predViews predActs
      rw [List.filter_map]
      rfl
    rw [hview, List.map_map]
    congr 1
    congr 1
    apply List.map_congr_left
    intro b _
    exact crefEF_eq_vrefEF base f b

theorem crefEF_congr {s t : List Activity} (hv : s.map baseView = t.map baseView)
    {a b : Activity} (hab : baseView a = baseView b) (f : Nat) :
    crefEF s f a = crefEF t f b := by
  rw [crefEF_eq_vrefEF, crefEF_eq_vrefEF, hv, hab]

theorem crefES_congr {s t : List Activity} (hv : s.map baseView = t.map baseView)
    {a b : Activity} (hab : baseView a = baseView b) (f : Nat) :
    crefES s f a = crefES t f b := by
  have h1 := crefEF_congr hv hab (f+1)
  have e1 : crefEF s (f+1) a = crefES s f a + a.duration := rfl
  have e2 : crefEF t (f+1) b = crefES t f b + b.duration := rfl
  have hd : a.duration = b.duration := congrArg BaseView.duration hab
  omega

theorem crefEF_stable (base : List Activity) (hord : OrderConsistent base) :
    ∀ i, ∀ hi : i < base.length, ∀ f, i < f →
      crefEF base f (base.get ⟨i, hi⟩) = crefEF base (i+1) (base.get ⟨i, hi⟩) := by
  intro i
  induction i using Nat.strong_induction_on with
  | _ i IH =>
    intro hi f hf
    obtain ⟨g, rfl⟩ : ∃ g, f = g + 1 := ⟨f - 1, by omega⟩
    show crefEF base (g+1) _ = crefEF base (i+1) _
    unfold crefEF
    congr 1
    congr 1
    apply List.map_congr_left
    intro b hb
    unfold predActs at hb
    rw [List.mem_filter] at hb
    obtain ⟨hbase, hcond⟩ := hb
    obtain ⟨⟨j, hj⟩, hget⟩ := List.mem_iff_get.mp hbase
    have hmem : (base.get ⟨j, hj⟩).id ∈ (base.get ⟨i, hi⟩).predecessors := by
      rw [hget]
      exact (contains_int_iff _ _).mp hcond
    have hji : j < i := hord i hi j hj hmem
    rw [← hget, IH j hji hj g (by omega), IH j hji hj i (by omega)]

theorem crefEF_nonneg (base : List Activity)
    (hb : ∀ b ∈ base, 0 ≤ b.duration) :
    ∀ f a, 0 ≤ a.duration → 0 ≤ crefEF base f a
  | 0, _, ha => ha
  | f+1, a, ha => by
    show 0 ≤ ((predActs base a).map (crefEF base f)).foldl max 0 + a.duration
    have h0 : (0:Int) ≤ ((predActs base a).map (crefEF base f)).foldl max 0 :=
      foldl_max_init_le _ 0
    omega

theorem crefEF_eq_refEF (base : List Activity)
    (hb : ∀ b ∈ base, 0 ≤ b.duration) :
    ∀ f a, crefEF base f a = refEF base f a
  | 0, _ => rfl
  | f+1, a => by
    show ((predActs base a).map (crefEF base f)).foldl max 0 + a.duration =
      maxOr0 ((predActs base a).map (refEF base f)) + a.duration
    congr 1
    have hmap : (predActs base a).map (crefEF base f) =
        (predActs base a).map (refEF base f) := by
      apply List.map_congr_left
      intro b _
      exact crefEF_eq_refEF base hb f b
    rw [← hmap]
    refine (maxOr0_eq_foldl _ ?_).symm
    intro x hx
    obtain ⟨b, hbmem, hbx⟩ := List.mem_map.mp hx
    rw [← hbx]
    refine crefEF_nonneg base hb f b (hb b ?_)
    exact List.mem_of_mem_filter hbmem

theorem crefES_eq_refES (base : List Activity)
    (hb : ∀ b ∈ base, 0 ≤ b.duration) (f : Nat) (a : Activity) :
    crefES base f a = refES base f a := by
  have h1 : crefEF base (f+1) a = refEF base (f+1) a := crefEF_eq_refEF base hb (f+1) a
  have e1 : crefEF base (f+1) a = crefES base f a + a.duration := rfl
  have e2 : refEF base (f+1) a = refES base f a + a.duration := rfl
  omega

/-! ## The mid-forward-pass state -/

theorem length_fwdMixed (base : List Activity) (i : Nat) (hi : i ≤ base.length) :
    (fwdMixed base i).length = base.length := by
  unfold fwdMixed
  simp
  omega

theorem fwdMixed_getElem?_lt (base : List Activity) (i j : Nat) (hji : j < i)
    (hi : i ≤ base.length) :
    (fwdMixed base i)[j]? = (base[j]?).map (fwdTarget base) := by
  unfold fwdMixed
  rw [List.getElem?_append_left (by simp; omega), List.getElem?_map,
      List.getElem?_take_of_lt hji]

theorem fwdMixed_getElem?_ge (base : List Activity) (i j : Nat) (hij : i ≤ j)
    (hi : i ≤ base.length) :
    (fwdMixed base i)[j]? = base[j]? := by
  unfold fwdMixed
  have hlen : ((base.take i).map (fwdTarget base)).length = i := by
    simp
    omega
  rw [List.getElem?_append_right (by omega), hlen, List.getElem?_drop]
  congr 1
  omega

theorem fwdMixed_map_baseView (base : List Activity) (i : Nat) :
    (fwdMixed base i).map baseView = base.map baseView := by
  unfold fwdMixed
  rw [List.map_append, List.map_map]
  have h1 : (base.take i).map (baseView ∘ fwdTarget base) = (base.take i).map baseView := by
    apply List.map_congr_left
    intro a _
    rfl
  rw [h1, ← List.map_append, List.take_append_drop]

theorem map_id_eq_of_baseView {s t : List Activity}
    (h : s.map baseView = t.map baseView) :
    s.map (fun a => a.id) = t.map (fun a => a.id) := by
  have hgen : ∀ u : List Activity,
      u.map (fun a => a.id) = (u.map baseView).map (fun v => v.id) := by
    intro u
    rw [List.map_map]
    rfl
  rw [hgen s, hgen t, h]

theorem baseView_get_eq {s t : List Activity} (h : s.map baseView = t.map baseView)
    {j : Nat} (hjs : j < s.length) (hjt : j < t.length) :
    baseView (s.get ⟨j, hjs⟩) = baseView (t.get ⟨j, hjt⟩) := by
  have h1 : (s.map baseView)[j]? = (t.map baseView)[j]? := by rw [h]
  rw [List.getElem?_map, List.getElem?_map, List.getElem?_eq_getElem hjs,
      List.getElem?_eq_getElem hjt] at h1
  simp only [Option.map_some'] at h1
  have h2 := Option.some.inj h1
  rw [List.get_eq_getElem, List.get_eq_getElem]
  exact h2

/-! ## Forward-pass characterization -/

theorem stable_sum (base : List Activity) (hord : OrderConsistent base)
    {j : Nat} (hj : j < base.length) :
    crefES base base.length (base.get ⟨j, hj⟩) + (base.get ⟨j, hj⟩).duration =
      crefEF base base.length (base.get ⟨j, hj⟩) := by
  have e1 : crefES base base.length (base.get ⟨j, hj⟩) + (base.get ⟨j, hj⟩).duration =
      crefEF base (base.length + 1) (base.get ⟨j, hj⟩) := rfl
  rw [e1, crefEF_stable base hord j hj (base.length + 1) (by omega),
      ← crefEF_stable base hord j hj base.length (by omega)]

theorem maxFinish_fwdMixed (base : List Activity) (hnd : NodupIds base)
    (hord : OrderConsistent base) (i : Nat) (hi : i < base.length) :
    maxFinish (fwdMixed base i) (base.get ⟨i, hi⟩).predecessors =
      crefES base base.length (base.get ⟨i, hi⟩) := by
  have hslen : (fwdMixed base i).length = base.length :=
    length_fwdMixed base i (le_of_lt hi)
  have hview : (fwdMixed base i).map baseView = base.map baseView :=
    fwdMixed_map_baseView base i
  have hsnd : NodupIds (fwdMixed base i) := by
    unfold NodupIds
    rw [map_id_eq_of_baseView hview]
    exact hnd
  apply le_antisymm
  · apply foldl_mfStep_le
    · exact foldl_max_init_le _ 0
    · intro p hp b hb
      obtain ⟨hbmem, hbid⟩ := findActivity_mem hb
      obtain ⟨⟨j, hj⟩, hbj⟩ := List.mem_iff_get.mp hbmem
      have hj2 : j < base.length := by omega
      have hbv : baseView ((fwdMixed base i).get ⟨j, hj⟩) =
          baseView (base.get ⟨j, hj2⟩) := baseView_get_eq hview hj hj2
      have hidj : (base.get ⟨j, hj2⟩).id = p := by
        have := congrArg BaseView.id hbv
        rw [hbj] at this
        exact this.symm.trans hbid
      have hji : j < i := by
        refine hord i hi j hj2 ?_
        rw [hidj]
        exact hp
      have hsj : (fwdMixed base i).get ⟨j, hj⟩ =
          fwdTarget base (base.get ⟨j, hj2⟩) := by
        have h1 : (fwdMixed base i)[j]? = (base[j]?).map (fwdTarget base) :=
          fwdMixed_getElem?_lt base i j hji (le_of_lt hi)
        rw [List.getElem?_eq_getElem hj, List.getElem?_eq_getElem hj2] at h1
        simp only [Option.map_some'] at h1
        have h2 := Option.some.inj h1
        rw [List.get_eq_getElem, List.get_eq_getElem]
        exact h2
      have hbef : b.early_finish = crefEF base base.length (base.get ⟨j, hj2⟩) := by
        rw [← hbj, hsj]
        show crefES base base.length (base.get ⟨j, hj2⟩) +
          (base.get ⟨j, hj2⟩).duration = _
        exact stable_sum base hord hj2
      rw [hbef]
      apply le_foldl_max_of_mem
      apply List.mem_map_of_mem
      unfold predActs
      rw [List.mem_filter]
      refine ⟨List.get_mem base j hj2, ?_⟩
      apply (contains_int_iff _ _).mpr
      rw [hidj]
      exact hp
  · show ((predActs base (base.get ⟨i, hi⟩)).map
        (crefEF base base.length)).foldl max 0 ≤ _
    apply foldl_max_le
    · exact foldl_mfStep_init_le _ _ _
    · intro x hx
      obtain ⟨c, hcmem, hcx⟩ := List.mem_map.mp hx
      have hcmem' := hcmem
      unfold predActs at hcmem'
      rw [List.mem_filter] at hcmem'
      obtain ⟨hcbase, hccond⟩ := hcmem'
      obtain ⟨⟨j, hj2⟩, hcj⟩ := List.mem_iff_get.mp hcbase
      have hmemp : c.id ∈ (base.get ⟨i, hi⟩).predecessors :=
        (contains_int_iff _ _).mp hccond
      have hji : j < i := by
        refine hord i hi j hj2 ?_
        rw [hcj]
        exact hmemp
      have hj : j < (fwdMixed base i).length := by omega
      have hfind : findActivity (fwdMixed base i)
          (((fwdMixed base i).get ⟨j, hj⟩).id) =
          some ((fwdMixed base i).get ⟨j, hj⟩) :=
        findActivity_nodup _ hsnd j hj
      have hsid : ((fwdMixed base i).get ⟨j, hj⟩).id = c.id := by
        have := congrArg BaseView.id (baseView_get_eq hview hj hj2)
        rw [hcj] at this
        exact this
      rw [hsid] at hfind
      have hle := found_le_foldl_mfStep (base.get ⟨i, hi⟩).predecessors
        (fwdMixed base i) c.id ((fwdMixed base i).get ⟨j, hj⟩) hmemp hfind 0
      have hsj : (fwdMixed base i).get ⟨j, hj⟩ =
          fwdTarget base (base.get ⟨j, hj2⟩) := by
        have h1 : (fwdMixed base i)[j]? = (base[j]?).map (fwdTarget base) :=
          fwdMixed_getElem?_lt base i j hji (le_of_lt hi)
        rw [List.getElem?_eq_getElem hj, List.getElem?_eq_getElem hj2] at h1
        simp only [Option.map_some'] at h1
        have h2 := Option.some.inj h1
        rw [List.get_eq_getElem, List.get_eq_getElem]
        exact h2
      have hef : ((fwdMixed base i).get ⟨j, hj⟩).early_finish = x := by
        rw [hsj]
        show crefES base base.length (base.get ⟨j, hj2⟩) +
          (base.get ⟨j, hj2⟩).duration = x
        rw [stable_sum base hord hj2, hcj, hcx]
      rw [hef] at hle
      exact hle

theorem crefES_of_no_preds (base : List Activity) (a : Activity)
    (ha : a.predecessors.isEmpty = true) :
    crefES base base.length a = 0 := by
  unfold crefES predActs
  rw [List.isEmpty_iff] at ha
  simp [ha]

theorem fwdStep_fwdMixed (base : List Activity) (hnd : NodupIds base)
    (hord : OrderConsistent base) (i : Nat) (hi : i < base.length) :
    fwdStep (fwdMixed base i) i = fwdMixed base (i+1) := by
  have hget : (fwdMixed base i)[i]? = some (base.get ⟨i, hi⟩) := by
    rw [fwdMixed_getElem?_ge base i i (le_refl i) (le_of_lt hi),
        List.getElem?_eq_getElem hi]
    rw [List.get_eq_getElem]
  have hes : (if (base.get ⟨i, hi⟩).predecessors.isEmpty then 0
      else maxFinish (fwdMixed base i) (base.get ⟨i, hi⟩).predecessors) =
      crefES base base.length (base.get ⟨i, hi⟩) := by
    by_cases hp : (base.get ⟨i, hi⟩).predecessors.isEmpty
    · rw [if_pos hp, crefES_of_no_preds base _ hp]
    · rw [if_neg hp]
      exact maxFinish_fwdMixed base hnd hord i hi
  unfold fwdStep
  rw [hget]
  show (fwdMixed base i).set i
      { base.get ⟨i, hi⟩ with
        early_start := if (base.get ⟨i, hi⟩).predecessors.isEmpty then 0
          else maxFinish (fwdMixed base i) (base.get ⟨i, hi⟩).predecessors
      , early_finish := (if (base.get ⟨i, hi⟩).predecessors.isEmpty then 0
          else maxFinish (fwdMixed base i) (base.get ⟨i, hi⟩).predecessors) +
            (base.get ⟨i, hi⟩).duration } = fwdMixed base (i+1)
  rw [hes]
  show (fwdMixed base i).set i (fwdTarget base (base.get ⟨i, hi⟩)) = _
  unfold fwdMixed
  have hlen : ((base.take i).map (fwdTarget base)).length = i := by
    simp
    omega
  rw [List.set_append_right _ _ (by omega), hlen, Nat.sub_self,
      List.drop_eq_getElem_cons hi, List.set_cons_zero, List.take_succ,
      List.getElem?_eq_getElem hi]
  simp
  rw [List.take_succ, List.getElem?_map, List.getElem?_eq_getElem hi]
  simp

theorem fwdSteps_fwdMixed (base : List Activity) (hnd : NodupIds base)
    (hord : OrderConsistent base) :
    ∀ k i, i + k = base.length →
      fwdSteps k i (fwdMixed base i) = base.map (fwdTarget base)
  | 0, i, hik => by
    have hieq : i = base.length := by omega
    subst hieq
    unfold fwdSteps fwdMixed
    rw [List.take_length, List.drop_length, List.append_nil]
  | k+1, i, hik => by
    rw [fwdSteps, fwdStep_fwdMixed base hnd hord i (by omega)]
    exact fwdSteps_fwdMixed base hnd hord k (i+1) (by omega)

/-- The forward pass of an order-consistent, duplicate-free collection
rewrites every activity with its closed-form early times. -/
theorem forwardPass_eq (base : List Activity) (hnd : NodupIds base)
    (hord : OrderConsistent base) :
    forwardPass base = base.map (fwdTarget base) := by
  have h0 : fwdMixed base 0 = base := by
    unfold fwdMixed
    simp
  have h := fwdSteps_fwdMixed base hnd hord base.length 0 (by omega)
  rw [h0] at h
  exact h

/-! ## Backward-pass structure -/

theorem set_self_of_getElem? {α : Type} {l : List α} {i : Nat} {a : α}
    (h : l[i]? = some a) : l.set i a = l := by
  apply List.ext_getElem?
  intro j
  by_cases hij : i = j
  · subst hij
    rw [List.getElem?_set_self', h]
    rfl
  · rw [List.getElem?_set_ne hij]

theorem map_get_eq {α β : Type} (f : α → β) {s t : List α}
    (h : s.map f = t.map f) {j : Nat} (hjs : j < s.length) (hjt : j < t.length) :
    f (s.get ⟨j, hjs⟩) = f (t.get ⟨j, hjt⟩) := by
  have h1 : (s.map f)[j]? = (t.map f)[j]? := by rw [h]
  rw [List.getElem?_map, List.getElem?_map, List.getElem?_eq_getElem hjs,
      List.getElem?_eq_getElem hjt] at h1
  simp only [Option.map_some'] at h1
  have h2 := Option.some.inj h1
  rw [List.get_eq_getElem, List.get_eq_getElem]
  exact h2

theorem bwdStep_map_earlyView (pd : Int) (s : List Activity) (i : Nat) :
    (bwdStep pd s i).map earlyView = s.map earlyView := by
  unfold bwdStep
  split
  · rfl
  · rename_i a ha
    rw [List.map_set]
    exact set_self_of_getElem? (by rw [List.getElem?_map, ha]; rfl)

theorem bwdSteps_map_earlyView : ∀ k i pd s,
    (bwdSteps k i pd s).map earlyView = s.map earlyView
  | 0, _, _, _ => rfl
  | k+1, i, pd, s => by
    rw [bwdSteps, bwdSteps_map_earlyView k, bwdStep_map_earlyView]

theorem backwardPass_map_earlyView (pd : Int) (s : List Activity) :
    (backwardPass pd s).map earlyView = s.map earlyView :=
  bwdSteps_map_earlyView _ _ _ _

theorem bwdSteps_getElem?_gt : ∀ k i pd s j, i < j →
    (bwdSteps k i pd s)[j]? = s[j]?
  | 0, _, _, _, _, _ => rfl
  | k+1, i, pd, s, j, hij => by
    rw [bwdSteps, bwdSteps_getElem?_gt k (i-1) pd _ j (by omega)]
    unfold bwdStep
    split
    · rfl
    · rw [List.getElem?_set_ne (by omega)]

theorem bwdStep_self_inv (pd : Int) (s : List Activity) (i : Nat) (a : Activity)
    (ha : s[i]? = some a) :
    ∃ b, (bwdStep pd s i)[i]? = some b ∧
      b.early_start = a.early_start ∧ b.early_finish = a.early_finish ∧
      b.duration = a.duration ∧
      b.late_start = b.late_finish - b.duration ∧
      b.slack = b.late_start - b.early_start ∧
      b.is_critical = (b.slack == 0) := by
  have hi : i < s.length := by
    by_contra hcon
    rw [List.getElem?_eq_none (by omega)] at ha
    exact Option.noConfusion ha
  unfold bwdStep
  rw [ha, List.getElem?_set_self (by simpa using hi)]
  exact ⟨_, rfl, rfl, rfl, rfl, rfl, rfl, rfl⟩

theorem fwdSteps_getElem?_lt_start : ∀ k i s j, j < i →
    (fwdSteps k i s)[j]? = s[j]?
  | 0, _, _, _, _ => rfl
  | k+1, i, s, j, hji => by
    rw [fwdSteps, fwdSteps_getElem?_lt_start k (i+1) _ j (by omega)]
    unfold fwdStep
    split
    · rfl
    · rw [List.getElem?_set_ne (by omega)]

theorem fwdStep_self_efes (s : List Activity) (i : Nat) (a : Activity)
    (ha : s[i]? = some a) :
    ∃ b, (fwdStep s i)[i]? = some b ∧
      b.early_finish = b.early_start + b.duration := by
  have hi : i < s.length := by
    by_contra hcon
    rw [List.getElem?_eq_none (by omega)] at ha
    exact Option.noConfusion ha
  unfold fwdStep
  rw [ha, List.getElem?_set_self (by simpa using hi)]
  exact ⟨_, rfl, rfl⟩

theorem fwdSteps_efes : ∀ k i s, i + k = s.length →
    ∀ j, i ≤ j → ∀ hjs : j < s.length, ∃ b, (fwdSteps k i s)[j]? = some b ∧
      b.early_finish = b.early_start + b.duration
  | 0, i, s, hik, j, hij, hjs => by omega
  | k+1, i, s, hik, j, hij, hjs => by
    rw [fwdSteps]
    by_cases hji : j = i
    · subst hji
      rw [fwdSteps_getElem?_lt_start k (j+1) _ j (by omega)]
      exact fwdStep_self_efes s j _ (List.getElem?_eq_getElem hjs)
    · exact fwdSteps_efes k (i+1) (fwdStep s i)
        (by rw [length_fwdStep]; omega) j (by omega)
        (by rw [length_fwdStep]; omega)

theorem bwdStep_preserves_efes (pd : Int) (s : List Activity) (i : Nat)
    (hs : ∀ x ∈ s, x.early_finish = x.early_start + x.duration) :
    ∀ x ∈ bwdStep pd s i, x.early_finish = x.early_start + x.duration := by
  intro x hx
  unfold bwdStep at hx
  split at hx
  · exact hs x hx
  · rename_i a ha
    rcases List.mem_or_eq_of_mem_set hx with h | h
    · exact hs x h
    · subst h
      exact hs a (List.getElem?_mem ha)

theorem forwardPass_efes (s : List Activity) :
    ∀ x ∈ forwardPass s, x.early_finish = x.early_start + x.duration := by
  intro x hx
  obtain ⟨n, hn⟩ := List.mem_iff_getElem?.mp hx
  have hlt : n < (forwardPass s).length := by
    by_contra hcon
    rw [List.getElem?_eq_none (by omega)] at hn
    exact Option.noConfusion hn
  have hn' : n < s.length := by
    rw [← length_forwardPass s]
    exact hlt
  obtain ⟨b, hb, hbe⟩ := fwdSteps_efes s.length 0 s (by omega) n (by omega) hn'
  have hb' : (forwardPass s)[n]? = some b := hb
  rw [hn] at hb'
  rw [Option.some.inj hb']
  exact hbe

theorem bwdSteps_inv_aux (pd : Int) :
    ∀ i s, i < s.length →
    (∀ x ∈ s, x.early_finish = x.early_start + x.duration) →
    ∀ j, j ≤ i → ∃ b, (bwdSteps (i+1) i pd s)[j]? = some b ∧
      b.early_finish = b.early_start + b.duration ∧
      b.late_start = b.late_finish - b.duration ∧
      b.slack = b.late_start - b.early_start ∧
      b.is_critical = (b.slack == 0)
  | 0, s, hi, hs, j, hj0 => by
    have hj' : j = 0 := by omega
    subst hj'
    obtain ⟨a, ha⟩ : ∃ a, s[0]? = some a := ⟨_, List.getElem?_eq_getElem hi⟩
    obtain ⟨b, hb, hbes, hbef, hbd, hbls, hbsl, hbcrit⟩ :=
      bwdStep_self_inv pd s 0 a ha
    refine ⟨b, hb, ?_, hbls, hbsl, hbcrit⟩
    rw [hbes, hbef, hbd]
    exact hs a (List.getElem?_mem ha)
  | i+1, s, hi, hs, j, hji => by
    by_cases hjc : j ≤ i
    · exact bwdSteps_inv_aux pd i (bwdStep pd s (i+1))
        (by rw [length_bwdStep]; omega)
        (bwdStep_preserves_efes pd s (i+1) hs) j hjc
    · have hji1 : j = i + 1 := by omega
      subst hji1
      obtain ⟨a, ha⟩ : ∃ a, s[i+1]? = some a := ⟨_, List.getElem?_eq_getElem hi⟩
      obtain ⟨b, hb, hbes, hbef, hbd, hbls, hbsl, hbcrit⟩ :=
        bwdStep_self_inv pd s (i+1) a ha
      refine ⟨b, ?_, ?_, hbls, hbsl, hbcrit⟩
      · show (bwdSteps (i+1) i pd (bwdStep pd s (i+1)))[i+1]? = some b
        rw [bwdSteps_getElem?_gt (i+1) i pd _ (i+1) (by omega)]
        exact hb
      · rw [hbes, hbef, hbd]
        exact hs a (List.getElem?_mem ha)

theorem backwardPass_inv (pd : Int) (s : List Activity) (hne : s ≠ [])
    (hs : ∀ x ∈ s, x.early_finish = x.early_start + x.duration) :
    ∀ x ∈ backwardPass pd s,
      x.early_finish = x.early_start + x.duration ∧
      x.late_start = x.late_finish - x.duration ∧
      x.slack = x.late_start - x.early_start ∧
      x.is_critical = (x.slack == 0) := by
  intro x hx
  have hlen : 0 < s.length := List.length_pos.mpr hne
  obtain ⟨n, hn⟩ := List.mem_iff_getElem?.mp hx
  have hlt : n < (backwardPass pd s).length := by
    by_contra hcon
    rw [List.getElem?_eq_none (by omega)] at hn
    exact Option.noConfusion hn
  have hn' : n < s.length := by
    rw [← length_backwardPass pd s]
    exact hlt
  have hform : backwardPass pd s = bwdSteps (s.length - 1 + 1) (s.length - 1) pd s := by
    unfold backwardPass
    congr 1
    omega
  obtain ⟨b, hb, h1, h2, h3, h4⟩ := bwdSteps_inv_aux pd (s.length - 1) s
    (by omega) hs n (by omega)
  have hb' : (backwardPass pd s)[n]? = some b := by
    rw [hform]
    exact hb
  rw [hn] at hb'
  rw [Option.some.inj hb']
  exact ⟨h1, h2, h3, h4⟩

/-! ## C6: post-run field invariants -/

theorem calculate_cpm_ok_inv {s : List Activity} {r : CPMResult}
    (h : calculate_cpm s = Except.ok r) :
    ∃ pd, maxEarlyFinish (forwardPass s) = some pd ∧
      r = { activities := backwardPass pd (forwardPass s)
          , project_duration := pd
          , critical_path := ((backwardPass pd (forwardPass s)).filter
              (fun a => a.is_critical)).map (fun a => a.id)
          , critical_activities := (backwardPass pd (forwardPass s)).filter
              (fun a => a.is_critical) } := by
  simp only [calculate_cpm] at h
  cases hm : maxEarlyFinish (forwardPass s) with
  | none =>
    rw [hm] at h
    exact Except.noConfusion h
  | some pd =>
    rw [hm] at h
    exact ⟨pd, rfl, (Except.ok.inj h).symm⟩

theorem ne_nil_of_cpm_ok {s : List Activity} {r : CPMResult}
    (h : calculate_cpm s = Except.ok r) : s ≠ [] := by
  intro hnil
  subst hnil
  have he : calculate_cpm ([] : List Activity) = Except.error CPMError.emptyMax := rfl
  rw [he] at h
  exact Except.noConfusion h

/-- C6: after any successful `calculate_cpm` run, every returned activity
satisfies `early_finish = early_start + duration`,
`late_start = late_finish - duration`, `slack = late_start - early_start`
and `is_critical ↔ slack = 0`; and `critical_path` is exactly the ids of
the zero-slack activities in the engine's internal (insertion) order. -/
theorem cpm_invariants (s : List Activity) (r : CPMResult)
    (h : calculate_cpm s = Except.ok r) :
    (∀ a ∈ r.activities,
      a.early_finish = a.early_start + a.duration ∧
      a.late_start = a.late_finish - a.duration ∧
      a.slack = a.late_start - a.early_start ∧
      (a.is_critical = true ↔ a.slack = 0)) ∧
    r.critical_path = (r.activities.filter (fun a => a.slack == 0)).map
      (fun a => a.id) := by
  have hne : s ≠ [] := ne_nil_of_cpm_ok h
  obtain ⟨pd, hm, hr⟩ := calculate_cpm_ok_inv h
  have hfne : forwardPass s ≠ [] := by
    intro hnil
    have hl := length_forwardPass s
    rw [hnil] at hl
    exact hne (List.eq_nil_of_length_eq_zero hl.symm)
  have hinv := backwardPass_inv pd (forwardPass s) hfne (forwardPass_efes s)
  subst hr
  constructor
  · intro a ha
    obtain ⟨h1, h2, h3, h4⟩ := hinv a ha
    refine ⟨h1, h2, h3, ?_⟩
    rw [h4]
    exact beq_iff_eq
  · show ((backwardPass pd (forwardPass s)).filter
        (fun a => a.is_critical)).map (fun a => a.id) = _
    congr 1
    apply List.filter_congr
    intro x hx
    exact (hinv x hx).2.2.2

theorem cpm_invariants_witness :
    ∃ r, calculate_cpm exChain = Except.ok r ∧
      ((∀ a ∈ r.activities,
        a.early_finish = a.early_start + a.duration ∧
        a.late_start = a.late_finish - a.duration ∧
        a.slack = a.late_start - a.early_start ∧
        (a.is_critical = true ↔ a.slack = 0)) ∧
      r.critical_path = (r.activities.filter (fun a => a.slack == 0)).map
        (fun a => a.id)) :=
  ⟨_, rfl, cpm_invariants exChain _ rfl⟩

/-! ## C1: forward-pass correctness on insertion-order-consistent DAGs -/

theorem maxEarlyFinish_eq_maxOr0 {s : List Activity} {v : Int}
    (h : maxEarlyFinish s = some v) :
    v = maxOr0 (s.map (fun a => a.early_finish)) := by
  cases s with
  | nil => exact Option.noConfusion h
  | cons a rest =>
    have hv := Option.some.inj h
    rw [← hv]
    show rest.foldl (fun m b => max m b.early_finish) a.early_finish =
      (rest.map (fun x => x.early_finish)).foldl max a.early_finish
    rw [List.foldl_map]

theorem map_ef_eq_of_earlyView {s t : List Activity}
    (h : s.map earlyView = t.map earlyView) :
    s.map (fun a => a.early_finish) = t.map (fun a => a.early_finish) := by
  have key : ∀ u : List Activity, u.map (fun a => a.early_finish) =
      (u.map earlyView).map (fun v => v.early_finish) := by
    intro u
    rw [List.map_map]
    rfl
  rw [key s, key t, h]

theorem filter_map_ef_eq {s t : List Activity}
    (h : s.map earlyView = t.map earlyView) (preds : List Int) :
    (s.filter (fun b => preds.contains b.id)).map (fun b => b.early_finish) =
      (t.filter (fun b => preds.contains b.id)).map (fun b => b.early_finish) := by
  have key : ∀ u : List Activity,
      (u.filter (fun b => preds.contains b.id)).map (fun b => b.early_finish) =
        ((u.map earlyView).filter (fun v => preds.contains v.id)).map
          (fun v => v.early_finish) := by
    intro u
    rw [List.filter_map, List.map_map]
    rfl
  rw [key s, key t, h]

theorem filter_map_ef_tgt (base : List Activity) (preds : List Int) :
    ((base.map (fwdTarget base)).filter (fun b => preds.contains b.id)).map
      (fun b => b.early_finish) =
      (base.filter (fun b => preds.contains b.id)).map
        (fun b => crefES base base.length b + b.duration) := by
  rw [List.filter_map, List.map_map]
  rfl

theorem maxOr0_predActs (base : List Activity) (hord : OrderConsistent base)
    (hdur : ∀ a ∈ base, 0 ≤ a.duration) (i : Nat) (hi : i < base.length) :
    maxOr0 ((base.filter (fun b =>
        (base.get ⟨i, hi⟩).predecessors.contains b.id)).map
      (fun b => crefES base base.length b + b.duration)) =
      crefES base base.length (base.get ⟨i, hi⟩) := by
  have hmap : (predActs base (base.get ⟨i, hi⟩)).map
      (fun b => crefES base base.length b + b.duration) =
      (predActs base (base.get ⟨i, hi⟩)).map (crefEF base base.length) := by
    apply List.map_congr_left
    intro b hb
    obtain ⟨hbase, _⟩ := List.mem_filter.mp hb
    obtain ⟨⟨j, hj⟩, hbj⟩ := List.mem_iff_get.mp hbase
    rw [← hbj]
    exact stable_sum base hord hj
  show maxOr0 ((predActs base (base.get ⟨i, hi⟩)).map
      (fun b => crefES base base.length b + b.duration)) = _
  rw [hmap, maxOr0_eq_foldl]
  · rfl
  · intro x hx
    obtain ⟨b, hbmem, hbx⟩ := List.mem_map.mp hx
    rw [← hbx]
    exact crefEF_nonneg base hdur _ b (hdur b (List.mem_of_mem_filter hbmem))

/-- C1: on a non-empty activity collection obeying the data model (unique
ids, durations ≥ 1) whose predecessor relation is a DAG consistent with
insertion order (every predecessor added before each dependent),
`calculate_cpm` assigns every activity
`early_start = max(early_finish over the activities whose id appears in its
predecessors list, 0 if that set is empty)`,
`early_finish = early_start + duration`, and returns
`project_duration = max(early_finish)`; the early times moreover equal the
recursive longest-path reference definition (`refES`/`refEF`). -/
theorem cpm_forward_correct (base : List Activity)
    (hne : base ≠ []) (hnd : NodupIds base) (hord : OrderConsistent base)
    (hdur : ∀ a ∈ base, 1 ≤ a.duration) :
    ∃ r, calculate_cpm base = Except.ok r ∧
      r.activities.length = base.length ∧
      (∀ i, ∀ hi : i < r.activities.length,
        (r.activities.get ⟨i, hi⟩).early_start =
          maxOr0 ((r.activities.filter (fun b =>
            (r.activities.get ⟨i, hi⟩).predecessors.contains b.id)).map
            (fun b => b.early_finish)) ∧
        (r.activities.get ⟨i, hi⟩).early_finish =
          (r.activities.get ⟨i, hi⟩).early_start +
          (r.activities.get ⟨i, hi⟩).duration) ∧
      r.project_duration = maxOr0 (r.activities.map (fun a => a.early_finish)) ∧
      (∀ i, ∀ hib : i < base.length, ∀ hi : i < r.activities.length,
        (r.activities.get ⟨i, hi⟩).early_start =
          refES base base.length (base.get ⟨i, hib⟩) ∧
        (r.activities.get ⟨i, hi⟩).early_finish =
          refEF base base.length (base.get ⟨i, hib⟩)) := by
  have h0dur : ∀ a ∈ base, 0 ≤ a.duration := fun a ha => by
    have := hdur a ha
    omega
  obtain ⟨r, hr⟩ := cpm_ok_of_ne_nil base hne
  obtain ⟨pd, hm, hreq⟩ := calculate_cpm_ok_inv hr
  have hfwd : forwardPass base = base.map (fwdTarget base) :=
    forwardPass_eq base hnd hord
  have hract : r.activities = backwardPass pd (forwardPass base) := by rw [hreq]
  have hrpd : r.project_duration = pd := by rw [hreq]
  have hev : r.activities.map earlyView = (base.map (fwdTarget base)).map earlyView := by
    rw [hract, ← hfwd]
    exact backwardPass_map_earlyView pd (forwardPass base)
  have hlen : r.activities.length = base.length := by
    rw [hract, length_backwardPass, length_forwardPass]
  have hev_i : ∀ i, ∀ hi : i < r.activities.length, ∀ hib : i < base.length,
      earlyView (r.activities.get ⟨i, hi⟩) =
        earlyView (fwdTarget base (base.get ⟨i, hib⟩)) := by
    intro i hi hib
    have hmt : i < (base.map (fwdTarget base)).length := by
      simp
      omega
    have h1 := map_get_eq earlyView hev hi hmt
    rw [h1]
    congr 1
    rw [List.get_eq_getElem, List.get_eq_getElem, List.getElem_map]
  have hes_i : ∀ i, ∀ hi : i < r.activities.length, ∀ hib : i < base.length,
      (r.activities.get ⟨i, hi⟩).early_start =
        crefES base base.length (base.get ⟨i, hib⟩) := by
    intro i hi hib
    exact congrArg EarlyView.early_start (hev_i i hi hib)
  have hef_i : ∀ i, ∀ hi : i < r.activities.length, ∀ hib : i < base.length,
      (r.activities.get ⟨i, hi⟩).early_finish =
        crefES base base.length (base.get ⟨i, hib⟩) +
          (base.get ⟨i, hib⟩).duration := by
    intro i hi hib
    exact congrArg EarlyView.early_finish (hev_i i hi hib)
  have hdur_i : ∀ i, ∀ hi : i < r.activities.length, ∀ hib : i < base.length,
      (r.activities.get ⟨i, hi⟩).duration = (base.get ⟨i, hib⟩).duration := by
    intro i hi hib
    exact congrArg EarlyView.duration (hev_i i hi hib)
  have hpred_i : ∀ i, ∀ hi : i < r.activities.length, ∀ hib : i < base.length,
      (r.activities.get ⟨i, hi⟩).predecessors =
        (base.get ⟨i, hib⟩).predecessors := by
    intro i hi hib
    exact congrArg EarlyView.predecessors (hev_i i hi hib)
  refine ⟨r, hr, hlen, ?_, ?_, ?_⟩
  · intro i hi
    have hib : i < base.length := by omega
    constructor
    · rw [hes_i i hi hib, hpred_i i hi hib, filter_map_ef_eq hev,
          filter_map_ef_tgt base]
      exact (maxOr0_predActs base hord h0dur i hib).symm
    · rw [hef_i i hi hib, hes_i i hi hib, hdur_i i hi hib]
  · have hef_map : r.activities.map (fun a => a.early_finish) =
        (forwardPass base).map (fun a => a.early_finish) := by
      apply map_ef_eq_of_earlyView
      rw [hract]
      exact backwardPass_map_earlyView pd (forwardPass base)
    rw [hrpd, maxEarlyFinish_eq_maxOr0 hm, hef_map]
  · intro i hib hi
    constructor
    · rw [hes_i i hi hib, crefES_eq_refES base h0dur]
    · rw [hef_i i hi hib, stable_sum base hord hib,
          crefEF_eq_refEF base h0dur]

theorem cpm_forward_correct_witness :
    (exDiamond ≠ [] ∧ NodupIds exDiamond ∧ OrderConsistent exDiamond ∧
      ∀ a ∈ exDiamond, 1 ≤ a.duration) ∧
    (∃ r, calculate_cpm exDiamond = Except.ok r ∧
      r.activities.length = exDiamond.length ∧
      (∀ i, ∀ hi : i < r.activities.length,
        (r.activities.get ⟨i, hi⟩).early_start =
          maxOr0 ((r.activities.filter (fun b =>
            (r.activities.get ⟨i, hi⟩).predecessors.contains b.id)).map
            (fun b => b.early_finish)) ∧
        (r.activities.get ⟨i, hi⟩).early_finish =
          (r.activities.get ⟨i, hi⟩).early_start +
          (r.activities.get ⟨i, hi⟩).duration) ∧
      r.project_duration = maxOr0 (r.activities.map (fun a => a.early_finish)) ∧
      (∀ i, ∀ hib : i < exDiamond.length, ∀ hi : i < r.activities.length,
        (r.activities.get ⟨i, hi⟩).early_start =
          refES exDiamond exDiamond.length (exDiamond.get ⟨i, hib⟩) ∧
        (r.activities.get ⟨i, hi⟩).early_finish =
          refEF exDiamond exDiamond.length (exDiamond.get ⟨i, hib⟩))) :=
  ⟨⟨by decide, by decide, by decide, by decide⟩,
    cpm_forward_correct exDiamond (by decide) (by decide) (by decide) (by decide)⟩

/-! ## C4: idempotence machinery -/

theorem map_eq_self_of {α : Type} {l : List α} {f : α → α}
    (h : ∀ a ∈ l, f a = a) : l.map f = l := by
  induction l with
  | nil => rfl
  | cons x xs IH =>
    rw [List.map_cons, h x (List.mem_cons_self x xs),
        IH (fun a ha => h a (List.mem_cons_of_mem x ha))]

theorem fwdTarget_eq_self {base : List Activity} {a : Activity}
    (h1 : crefES base base.length a = a.early_start)
    (h2 : a.early_start + a.duration = a.early_finish) :
    fwdTarget base a = a := by
  unfold fwdTarget
  rw [h1, h2]

theorem earlyView_to_baseView {s t : List Activity}
    (h : s.map earlyView = t.map earlyView) :
    s.map baseView = t.map baseView := by
  have key : ∀ u : List Activity,
      u.map baseView = (u.map earlyView).map
        (fun v => (⟨v.id, v.predecessors, v.duration⟩ : BaseView)) := by
    intro u
    rw [List.map_map]
    rfl
  rw [key s, key t, h]

theorem NodupIds_of_baseView {s t : List Activity}
    (h : s.map baseView = t.map baseView) (hnd : NodupIds t) : NodupIds s := by
  unfold NodupIds at hnd ⊢
  rw [map_id_eq_of_baseView h]
  exact hnd

theorem OrderConsistent_of_baseView {s t : List Activity}
    (h : s.map baseView = t.map baseView) (hord : OrderConsistent t) :
    OrderConsistent s := by
  intro i hi j hj hmem
  have hlen : s.length = t.length := by
    have hl := congrArg List.length h
    simpa using hl
  have hit : i < t.length := by omega
  have hjt : j < t.length := by omega
  apply hord i hit j hjt
  have hid : (s.get ⟨j, hj⟩).id = (t.get ⟨j, hjt⟩).id :=
    congrArg BaseView.id (baseView_get_eq h hj hjt)
  have hpreds : (s.get ⟨i, hi⟩).predecessors = (t.get ⟨i, hit⟩).predecessors :=
    congrArg BaseView.predecessors (baseView_get_eq h hi hit)
  rw [← hid, ← hpreds]
  exact hmem

theorem filter_eq_of_pointwise {α : Type} (P Q : α → Bool) :
    ∀ (s t : List α), s.length = t.length →
    (∀ k, ∀ hks : k < s.length, ∀ hkt : k < t.length,
      P (s.get ⟨k, hks⟩) = Q (t.get ⟨k, hkt⟩) ∧
      (P (s.get ⟨k, hks⟩) = true → s.get ⟨k, hks⟩ = t.get ⟨k, hkt⟩)) →
    s.filter P = t.filter Q
  | [], [], _, _ => rfl
  | [], _ :: _, hlen, _ => by simp at hlen
  | _ :: _, [], hlen, _ => by simp at hlen
  | x :: xs, y :: ys, hlen, h => by
    have h0 : P x = Q y ∧ (P x = true → x = y) := h 0 (by simp) (by simp)
    have hrest : xs.filter P = ys.filter Q :=
      filter_eq_of_pointwise P Q xs ys (by simpa using hlen)
        (fun k hks hkt => h (k+1) (by simpa using hks) (by simpa using hkt))
    rw [List.filter_cons, List.filter_cons]
    cases hp : P x with
    | true =>
      have hq : Q y = true := by rw [← h0.1]; exact hp
      rw [hq, h0.2 hp, hrest]
    | false =>
      have hq : Q y = false := by rw [← h0.1]; exact hp
      rw [hq, hrest]
      simp

theorem activity_ext_late {a b : Activity} (hev : earlyView a = earlyView b)
    (lf ls sl : Int) (cr : Bool) :
    ({ a with late_finish := lf
            , late_start := ls
            , slack := sl
            , is_critical := cr } : Activity) =
    { b with late_finish := lf
           , late_start := ls
           , slack := sl
           , is_critical := cr } := by
  cases a
  cases b
  simp only [earlyView, EarlyView.mk.injEq] at hev
  obtain ⟨h1, h2, h3, h4, h5, h6⟩ := hev
  simp_all

theorem bwdStep_getElem?_ne (pd : Int) (s : List Activity) (i j : Nat)
    (hij : j ≠ i) : (bwdStep pd s i)[j]? = s[j]? := by
  unfold bwdStep
  split
  · rfl
  · rw [List.getElem?_set_ne (by omega)]

theorem bwdStep_write_eq (pd : Int) (s t : List Activity) (i : Nat)
    (hordS : OrderConsistent s)
    (hev : s.map earlyView = t.map earlyView)
    (hgt : ∀ j, i < j → s[j]? = t[j]?) :
    (bwdStep pd s i)[i]? = (bwdStep pd t i)[i]? := by
  have hlen : s.length = t.length := by
    have hl := congrArg List.length hev
    simpa using hl
  by_cases hi : i < s.length
  case neg =>
    have hsi : s[i]? = none := List.getElem?_eq_none (by omega)
    have hti : t[i]? = none := List.getElem?_eq_none (by omega)
    simp only [bwdStep, hsi, hti]
  case pos =>
    have hit : i < t.length := by omega
    have hsi : s[i]? = some (s.get ⟨i, hi⟩) := by
      rw [List.getElem?_eq_getElem hi, List.get_eq_getElem]
    have hti : t[i]? = some (t.get ⟨i, hit⟩) := by
      rw [List.getElem?_eq_getElem hit, List.get_eq_getElem]
    have heva : earlyView (s.get ⟨i, hi⟩) = earlyView (t.get ⟨i, hit⟩) :=
      map_get_eq earlyView hev hi hit
    have hid : (s.get ⟨i, hi⟩).id = (t.get ⟨i, hit⟩).id :=
      congrArg EarlyView.id heva
    have hsucc : successorsOf s ((s.get ⟨i, hi⟩).id) =
        successorsOf t ((t.get ⟨i, hit⟩).id) := by
      unfold successorsOf
      apply filter_eq_of_pointwise _ _ s t hlen
      intro k hks hkt
      have hevk : earlyView (s.get ⟨k, hks⟩) = earlyView (t.get ⟨k, hkt⟩) :=
        map_get_eq earlyView hev hks hkt
      have hpk : (s.get ⟨k, hks⟩).predecessors =
          (t.get ⟨k, hkt⟩).predecessors :=
        congrArg EarlyView.predecessors hevk
      constructor
      · rw [hpk, hid]
      · intro hcont
        have hmem : (s.get ⟨i, hi⟩).id ∈ (s.get ⟨k, hks⟩).predecessors :=
          (contains_int_iff _ _).mp hcont
        have hik : i < k := hordS k hks i hi hmem
        have hjk := hgt k hik
        rw [List.getElem?_eq_getElem hks, List.getElem?_eq_getElem hkt] at hjk
        have h2 := Option.some.inj hjk
        rw [List.get_eq_getElem, List.get_eq_getElem]
        exact h2
    have hdur : (s.get ⟨i, hi⟩).duration = (t.get ⟨i, hit⟩).duration :=
      congrArg EarlyView.duration heva
    have hes : (s.get ⟨i, hi⟩).early_start = (t.get ⟨i, hit⟩).early_start :=
      congrArg EarlyView.early_start heva
    simp only [bwdStep, hsi, hti]
    rw [List.getElem?_set_self (by simpa using hi),
        List.getElem?_set_self (by simpa using hit)]
    congr 1
    have hname : (s.get ⟨i, hi⟩).name = (t.get ⟨i, hit⟩).name :=
      congrArg EarlyView.name heva
    have hef : (s.get ⟨i, hi⟩).early_finish = (t.get ⟨i, hit⟩).early_finish :=
      congrArg EarlyView.early_finish heva
    have hpds : (s.get ⟨i, hi⟩).predecessors = (t.get ⟨i, hit⟩).predecessors :=
      congrArg EarlyView.predecessors heva
    rw [hsucc, hdur, hes, hid, hname, hef, hpds]

theorem bwdSteps_sim (pd : Int) :
    ∀ i s t, OrderConsistent s → s.map earlyView = t.map earlyView →
      (∀ j, i < j → s[j]? = t[j]?) →
      bwdSteps (i+1) i pd s = bwdSteps (i+1) i pd t
  | 0, s, t, hord, hev, hgt => by
    show bwdStep pd s 0 = bwdStep pd t 0
    apply List.ext_getElem?
    intro j
    by_cases hj0 : j = 0
    · subst hj0
      exact bwdStep_write_eq pd s t 0 hord hev hgt
    · rw [bwdStep_getElem?_ne pd s 0 j hj0, bwdStep_getElem?_ne pd t 0 j hj0]
      exact hgt j (by omega)
  | i+1, s, t, hord, hev, hgt => by
    show bwdSteps (i+1) i pd (bwdStep pd s (i+1)) =
      bwdSteps (i+1) i pd (bwdStep pd t (i+1))
    have hev1 : (bwdStep pd s (i+1)).map earlyView =
        (bwdStep pd t (i+1)).map earlyView := by
      rw [bwdStep_map_earlyView, bwdStep_map_earlyView, hev]
    have hord1 : OrderConsistent (bwdStep pd s (i+1)) :=
      OrderConsistent_of_baseView
        (earlyView_to_baseView (by rw [bwdStep_map_earlyView])) hord
    have hgt1 : ∀ j, i < j →
        (bwdStep pd s (i+1))[j]? = (bwdStep pd t (i+1))[j]? := by
      intro j hij
      by_cases hji1 : j = i+1
      · subst hji1
        exact bwdStep_write_eq pd s t (i+1) hord hev
          (fun k hk => hgt k (by omega))
      · rw [bwdStep_getElem?_ne pd s (i+1) j hji1,
            bwdStep_getElem?_ne pd t (i+1) j hji1]
        exact hgt j (by omega)
    exact bwdSteps_sim pd i (bwdStep pd s (i+1)) (bwdStep pd t (i+1))
      hord1 hev1 hgt1

theorem maxEarlyFinish_congr {s t : List Activity}
    (h : s.map (fun a => a.early_finish) = t.map (fun a => a.early_finish)) :
    maxEarlyFinish s = maxEarlyFinish t := by
  cases s with
  | nil =>
    cases t with
    | nil => rfl
    | cons b bs => simp at h
  | cons a as =>
    cases t with
    | nil => simp at h
    | cons b bs =>
      simp only [List.map_cons, List.cons.injEq] at h
      obtain ⟨h1, h2⟩ := h
      show some (as.foldl (fun m x => max m x.early_finish) a.early_finish) =
        some (bs.foldl (fun m x => max m x.early_finish) b.early_finish)
      congr 1
      rw [← List.foldl_map (fun x : Activity => x.early_finish) max,
          ← List.foldl_map (fun x : Activity => x.early_finish) max, h1, h2]

/-- C4 (amended): on a non-empty collection with unique ids in which every
predecessor was added before each of its dependents, `calculate_cpm` is
idempotent: a second call on the engine's mutated activity list recomputes
exactly the same fields and returns the identical result record. -/
theorem cpm_idempotent (s : List Activity) (hne : s ≠ [])
    (hnd : NodupIds s) (hord : OrderConsistent s) :
    ∃ r, calculate_cpm s = Except.ok r ∧
      calculate_cpm r.activities = Except.ok r := by
  obtain ⟨r, hr⟩ := cpm_ok_of_ne_nil s hne
  obtain ⟨pd, hm, hreq⟩ := calculate_cpm_ok_inv hr
  refine ⟨r, hr, ?_⟩
  have hfwd : forwardPass s = s.map (fwdTarget s) := forwardPass_eq s hnd hord
  have hract : r.activities = backwardPass pd (forwardPass s) := by rw [hreq]
  have hevfin : r.activities.map earlyView = (forwardPass s).map earlyView := by
    rw [hract]
    exact backwardPass_map_earlyView pd (forwardPass s)
  have hbvfwd : (forwardPass s).map baseView = s.map baseView := by
    rw [hfwd]
    have key : (s.map (fwdTarget s)).map baseView =
        s.map (baseView ∘ fwdTarget s) := List.map_map _ _ _
    rw [key]
    apply List.map_congr_left
    intro a _
    rfl
  have hbvfin : r.activities.map baseView = s.map baseView :=
    (earlyView_to_baseView hevfin).trans hbvfwd
  have hndf : NodupIds r.activities := NodupIds_of_baseView hbvfin hnd
  have hordf : OrderConsistent r.activities :=
    OrderConsistent_of_baseView hbvfin hord
  have hlenf : r.activities.length = s.length := by
    rw [hract, length_backwardPass, length_forwardPass]
  have hefes : ∀ x ∈ r.activities,
      x.early_finish = x.early_start + x.duration := by
    intro x hx
    have hfne : forwardPass s ≠ [] := by
      intro hnil
      have hl := length_forwardPass s
      rw [hnil] at hl
      exact hne (List.eq_nil_of_length_eq_zero hl.symm)
    have := backwardPass_inv pd (forwardPass s) hfne (forwardPass_efes s)
    rw [hract] at hx
    exact (this x hx).1
  -- Step A: the second forward pass rewrites every activity with its own values
  have hfwd2 : forwardPass r.activities = r.activities := by
    rw [forwardPass_eq r.activities hndf hordf]
    apply map_eq_self_of
    intro a ha
    obtain ⟨n, hn⟩ := List.mem_iff_getElem?.mp ha
    have hnlt : n < r.activities.length := by
      by_contra hcon
      rw [List.getElem?_eq_none (by omega)] at hn
      exact Option.noConfusion hn
    have hns : n < s.length := by omega
    have haeq : r.activities.get ⟨n, hnlt⟩ = a := by
      rw [List.get_eq_getElem]
      rw [List.getElem?_eq_getElem hnlt] at hn
      exact Option.some.inj hn
    have hmt : n < (s.map (fwdTarget s)).length := by
      simp
      omega
    have hev_n : earlyView (r.activities.get ⟨n, hnlt⟩) =
        earlyView (fwdTarget s (s.get ⟨n, hns⟩)) := by
      have h1 := map_get_eq earlyView
        (by rw [hevfin, hfwd] :
          r.activities.map earlyView = (s.map (fwdTarget s)).map earlyView)
        hnlt hmt
      rw [h1]
      congr 1
      rw [List.get_eq_getElem, List.get_eq_getElem, List.getElem_map]
    have hes_a : a.early_start = crefES s s.length (s.get ⟨n, hns⟩) := by
      rw [← haeq]
      exact congrArg EarlyView.early_start hev_n
    have hbv_a : baseView a = baseView (s.get ⟨n, hns⟩) := by
      rw [← haeq]
      exact baseView_get_eq hbvfin hnlt hns
    apply fwdTarget_eq_self
    · rw [hlenf, crefES_congr hbvfin hbv_a s.length, hes_a]
    · have hd : a.duration = (s.get ⟨n, hns⟩).duration :=
        congrArg BaseView.duration hbv_a
      have := hefes a ha
      omega
  -- Step B: same project duration
  have hm2 : maxEarlyFinish r.activities = some pd := by
    rw [maxEarlyFinish_congr (map_ef_eq_of_earlyView hevfin)]
    exact hm
  -- Step C: the second backward pass leaves the list unchanged
  have hlpos : 0 < s.length := List.length_pos.mpr hne
  have hordfwd : OrderConsistent (forwardPass s) :=
    OrderConsistent_of_baseView hbvfwd hord
  have hC : backwardPass pd r.activities = r.activities := by
    have hsim := bwdSteps_sim pd (s.length - 1) (forwardPass s) r.activities
      hordfwd hevfin.symm ?_
    · have hf1 : backwardPass pd (forwardPass s) =
          bwdSteps (s.length - 1 + 1) (s.length - 1) pd (forwardPass s) := by
        unfold backwardPass
        rw [length_forwardPass]
        congr 1
        omega
      have hf2 : backwardPass pd r.activities =
          bwdSteps (s.length - 1 + 1) (s.length - 1) pd r.activities := by
        unfold backwardPass
        rw [hlenf]
        congr 1
        omega
      rw [hf2, ← hsim, ← hf1, ← hract]
    · intro j hj
      have hj1 : (forwardPass s).length ≤ j := by
        rw [length_forwardPass]
        omega
      have hj2 : r.activities.length ≤ j := by omega
      rw [List.getElem?_eq_none hj1, List.getElem?_eq_none hj2]
  -- assemble the second run
  simp only [calculate_cpm]
  rw [hfwd2]
  simp only [hm2]
  rw [hC, hract, hreq]

theorem cpm_idempotent_witness :
    (exChain ≠ [] ∧ NodupIds exChain ∧ OrderConsistent exChain) ∧
    (∃ r, calculate_cpm exChain = Except.ok r ∧
      calculate_cpm r.activities = Except.ok r) :=
  ⟨⟨by decide, by decide, by decide⟩,
    cpm_idempotent exChain (by decide) (by decide) (by decide)⟩

/-! ## C5: dangling predecessor ids behave as if absent -/

theorem findActivity_scrub (p q : Int) (s : List Activity) :
    findActivity (s.map (scrubPred p)) q =
      (findActivity s q).map (scrubPred p) := by
  unfold findActivity
  rw [List.find?_map]
  rfl

theorem mfStep_scrub (p : Int) (s : List Activity) (m q : Int) :
    mfStep (s.map (scrubPred p)) m q = mfStep s m q := by
  unfold mfStep
  rw [findActivity_scrub]
  cases findActivity s q with
  | none => rfl
  | some b => rfl

theorem foldl_mfStep_scrub (p : Int) (s : List Activity) :
    ∀ (preds : List Int) (init : Int),
      preds.foldl (mfStep (s.map (scrubPred p))) init =
        preds.foldl (mfStep s) init
  | [], _ => rfl
  | q :: ps, init => by
    show ps.foldl (mfStep (s.map (scrubPred p)))
        (mfStep (s.map (scrubPred p)) init q) = _
    rw [mfStep_scrub, foldl_mfStep_scrub p s ps]
    rfl

theorem foldl_mfStep_filter (p : Int) (s : List Activity)
    (hp : findActivity s p = none) :
    ∀ (preds : List Int) (init : Int),
      (preds.filter (fun q => !(q == p))).foldl (mfStep s) init =
        preds.foldl (mfStep s) init
  | [], _ => rfl
  | q :: ps, init => by
    rw [List.filter_cons]
    by_cases hqp : q = p
    · have hb : (!(q == p)) = false := by simp [hqp]
      rw [hb, if_neg Bool.false_ne_true]
      rw [foldl_mfStep_filter p s hp ps init]
      have hstep : mfStep s init q = init := by
        unfold mfStep
        rw [hqp, hp]
      show ps.foldl (mfStep s) init = ps.foldl (mfStep s) (mfStep s init q)
      rw [hstep]
    · have hb : (!(q == p)) = true := by
        simp [hqp]
      rw [hb, if_pos rfl]
      show (ps.filter (fun x => !(x == p))).foldl (mfStep s) (mfStep s init q) = _
      rw [foldl_mfStep_filter p s hp ps (mfStep s init q)]
      rfl

theorem findActivity_none_of_ids_ne (p : Int) (s : List Activity)
    (hp : ∀ b ∈ s, b.id ≠ p) : findActivity s p = none := by
  unfold findActivity
  rw [List.find?_eq_none]
  intro x hx
  simp only [beq_iff_eq]
  exact hp x hx

theorem contains_filter_ne (preds : List Int) (p aid : Int) (hne : aid ≠ p) :
    (preds.filter (fun q => !(q == p))).contains aid = preds.contains aid := by
  rw [Bool.eq_iff_iff]
  constructor
  · intro h
    exact (contains_int_iff _ _).mpr
      (List.mem_of_mem_filter ((contains_int_iff _ _).mp h))
  · intro h
    refine (contains_int_iff _ _).mpr (List.mem_filter.mpr
      ⟨(contains_int_iff _ _).mp h, ?_⟩)
    simp [hne]

theorem fwdStep_scrub (p : Int) (s : List Activity)
    (hp : ∀ b ∈ s, b.id ≠ p) (i : Nat) :
    fwdStep (s.map (scrubPred p)) i = (fwdStep s i).map (scrubPred p) := by
  have hnone : findActivity s p = none := findActivity_none_of_ids_ne p s hp
  unfold fwdStep
  rw [List.getElem?_map]
  cases hsi : s[i]? with
  | none => rfl
  | some a =>
    show (s.map (scrubPred p)).set i _ = (s.set i _).map (scrubPred p)
    rw [List.map_set]
    have hes : (if (scrubPred p a).predecessors.isEmpty then 0
        else maxFinish (s.map (scrubPred p)) (scrubPred p a).predecessors) =
        (if a.predecessors.isEmpty then 0 else maxFinish s a.predecessors) := by
      show (if (a.predecessors.filter (fun q => !(q == p))).isEmpty then 0
        else maxFinish (s.map (scrubPred p))
          (a.predecessors.filter (fun q => !(q == p)))) = _
      have hmf : maxFinish (s.map (scrubPred p))
          (a.predecessors.filter (fun q => !(q == p))) =
          maxFinish s a.predecessors := by
        unfold maxFinish
        rw [foldl_mfStep_scrub, foldl_mfStep_filter p s hnone]
      by_cases hfe : (a.predecessors.filter (fun q => !(q == p))).isEmpty
      · rw [if_pos hfe]
        by_cases hpe : a.predecessors.isEmpty
        · rw [if_pos hpe]
        · rw [if_neg hpe]
          rw [← hmf]
          rw [List.isEmpty_iff] at hfe
          show 0 = maxFinish (s.map (scrubPred p))
            (a.predecessors.filter (fun q => !(q == p)))
          rw [hfe]
          rfl
      · rw [if_neg hfe]
        by_cases hpe : a.predecessors.isEmpty
        · exfalso
          rw [List.isEmpty_iff] at hpe
          rw [hpe] at hfe
          exact hfe rfl
        · rw [if_neg hpe, hmf]
    rw [hes]
    rfl

theorem fwdStep_map_baseView (s : List Activity) (i : Nat) :
    (fwdStep s i).map baseView = s.map baseView := by
  unfold fwdStep
  split
  · rfl
  · rename_i a ha
    rw [List.map_set]
    exact set_self_of_getElem? (by rw [List.getElem?_map, ha]; rfl)

theorem fwdSteps_map_baseView : ∀ k i s,
    (fwdSteps k i s).map baseView = s.map baseView
  | 0, _, _ => rfl
  | k+1, i, s => by
    rw [fwdSteps, fwdSteps_map_baseView k, fwdStep_map_baseView]

theorem ids_ne_of_baseView {s t : List Activity}
    (h : s.map baseView = t.map baseView) (p : Int)
    (hp : ∀ b ∈ t, b.id ≠ p) : ∀ b ∈ s, b.id ≠ p := by
  intro b hb
  obtain ⟨n, hn⟩ := List.mem_iff_getElem?.mp hb
  have hns : n < s.length := by
    by_contra hcon
    rw [List.getElem?_eq_none (by omega)] at hn
    exact Option.noConfusion hn
  have hlen : s.length = t.length := by
    have hl := congrArg List.length h
    simpa using hl
  have hnt : n < t.length := by omega
  have hbv := baseView_get_eq h hns hnt
  have hid : (s.get ⟨n, hns⟩).id = (t.get ⟨n, hnt⟩).id :=
    congrArg BaseView.id hbv
  have hbeq : s.get ⟨n, hns⟩ = b := by
    rw [List.get_eq_getElem]
    rw [List.getElem?_eq_getElem hns] at hn
    exact Option.some.inj hn
  rw [← hbeq, hid]
  exact hp _ (List.get_mem t n hnt)

theorem fwdSteps_scrub (p : Int) : ∀ k i (s : List Activity),
    (∀ b ∈ s, b.id ≠ p) →
    fwdSteps k i (s.map (scrubPred p)) = (fwdSteps k i s).map (scrubPred p)
  | 0, _, _, _ => rfl
  | k+1, i, s, hp => by
    rw [fwdSteps, fwdSteps, fwdStep_scrub p s hp i]
    exact fwdSteps_scrub p k (i+1) (fwdStep s i)
      (ids_ne_of_baseView (fwdStep_map_baseView s i) p hp)

theorem forwardPass_scrub (p : Int) (s : List Activity)
    (hp : ∀ b ∈ s, b.id ≠ p) :
    forwardPass (s.map (scrubPred p)) = (forwardPass s).map (scrubPred p) := by
  unfold forwardPass
  rw [List.length_map]
  exact fwdSteps_scrub p s.length 0 s hp

theorem maxEarlyFinish_scrub (p : Int) (s : List Activity) :
    maxEarlyFinish (s.map (scrubPred p)) = maxEarlyFinish s := by
  cases s with
  | nil => rfl
  | cons a rest =>
    show some ((rest.map (scrubPred p)).foldl (fun m b => max m b.early_finish)
      (scrubPred p a).early_finish) = some _
    congr 1
    rw [List.foldl_map]
    rfl

theorem successorsOf_scrub (p aid : Int) (hne : aid ≠ p) (s : List Activity) :
    successorsOf (s.map (scrubPred p)) aid =
      (successorsOf s aid).map (scrubPred p) := by
  unfold successorsOf
  rw [List.filter_map]
  congr 1
  apply List.filter_congr
  intro b _
  show (b.predecessors.filter (fun q => !(q == p))).contains aid =
    b.predecessors.contains aid
  exact contains_filter_ne b.predecessors p aid hne

theorem bwdStep_scrub (p pd : Int) (s : List Activity)
    (hp : ∀ b ∈ s, b.id ≠ p) (i : Nat) :
    bwdStep pd (s.map (scrubPred p)) i = (bwdStep pd s i).map (scrubPred p) := by
  unfold bwdStep
  rw [List.getElem?_map]
  cases hsi : s[i]? with
  | none => rfl
  | some a =>
    have hane : a.id ≠ p := hp a (List.getElem?_mem hsi)
    show (s.map (scrubPred p)).set i _ = (s.set i _).map (scrubPred p)
    rw [List.map_set]
    have hsucc : successorsOf (s.map (scrubPred p)) ((scrubPred p a).id) =
        (successorsOf s a.id).map (scrubPred p) :=
      successorsOf_scrub p a.id hane s
    rw [hsucc]
    cases hs : successorsOf s a.id with
    | nil => rfl
    | cons x xs =>
      show (s.map (scrubPred p)).set i _ = (s.map (scrubPred p)).set i _
      congr 1
      have hmin : minLateStart (scrubPred p x) (xs.map (scrubPred p)) =
          minLateStart x xs := by
        unfold minLateStart
        rw [List.foldl_map]
        rfl
      simp only [List.map_cons]
      rw [hmin]
      rfl

theorem bwdStep_map_baseView (pd : Int) (s : List Activity) (i : Nat) :
    (bwdStep pd s i).map baseView = s.map baseView := by
  unfold bwdStep
  split
  · rfl
  · rename_i a ha
    rw [List.map_set]
    exact set_self_of_getElem? (by rw [List.getElem?_map, ha]; rfl)

theorem bwdSteps_scrub (p pd : Int) : ∀ k i (s : List Activity),
    (∀ b ∈ s, b.id ≠ p) →
    bwdSteps k i pd (s.map (scrubPred p)) =
      (bwdSteps k i pd s).map (scrubPred p)
  | 0, _, _, _ => rfl
  | k+1, i, s, hp => by
    rw [bwdSteps, bwdSteps, bwdStep_scrub p pd s hp i]
    exact bwdSteps_scrub p pd k (i-1) (bwdStep pd s i)
      (ids_ne_of_baseView (bwdStep_map_baseView pd s i) p hp)

theorem backwardPass_scrub (p pd : Int) (s : List Activity)
    (hp : ∀ b ∈ s, b.id ≠ p) :
    backwardPass pd (s.map (scrubPred p)) =
      (backwardPass pd s).map (scrubPred p) := by
  unfold backwardPass
  rw [List.length_map]
  exact bwdSteps_scrub p pd s.length (s.length - 1) s hp

theorem cpm_scrub (p : Int) (s : List Activity) (hp : ∀ b ∈ s, b.id ≠ p) :
    calculate_cpm (s.map (scrubPred p)) = (calculate_cpm s).map
      (fun r => { activities := r.activities.map (scrubPred p)
                , project_duration := r.project_duration
                , critical_path := r.critical_path
                , critical_activities :=
                    r.critical_activities.map (scrubPred p) }) := by
  have hpfwd : ∀ b ∈ forwardPass s, b.id ≠ p :=
    ids_ne_of_baseView (fwdSteps_map_baseView s.length 0 s) p hp
  simp only [calculate_cpm]
  rw [forwardPass_scrub p s hp, maxEarlyFinish_scrub p (forwardPass s)]
  cases hm : maxEarlyFinish (forwardPass s) with
  | none => rfl
  | some pd =>
    show (Except.ok
        { activities := backwardPass pd ((forwardPass s).map (scrubPred p))
        , project_duration := pd
        , critical_path :=
            ((backwardPass pd ((forwardPass s).map (scrubPred p))).filter
              (fun a => a.is_critical)).map (fun a => a.id)
        , critical_activities :=
            (backwardPass pd ((forwardPass s).map (scrubPred p))).filter
              (fun a => a.is_critical) } : Except CPMError CPMResult) =
      Except.ok
        { activities := (backwardPass pd (forwardPass s)).map (scrubPred p)
        , project_duration := pd
        , critical_path := ((backwardPass pd (forwardPass s)).filter
            (fun a => a.is_critical)).map (fun a => a.id)
        , critical_activities := ((backwardPass pd (forwardPass s)).filter
            (fun a => a.is_critical)).map (scrubPred p) }
    rw [backwardPass_scrub p pd (forwardPass s) hpfwd]
    have hfilter : ((backwardPass pd (forwardPass s)).map (scrubPred p)).filter
        (fun a => a.is_critical) =
        ((backwardPass pd (forwardPass s)).filter
          (fun a => a.is_critical)).map (scrubPred p) := by
      rw [List.filter_map]
      rfl
    rw [hfilter]
    have hpath : (((backwardPass pd (forwardPass s)).filter
        (fun a => a.is_critical)).map (scrubPred p)).map (fun a => a.id) =
        ((backwardPass pd (forwardPass s)).filter
          (fun a => a.is_critical)).map (fun a => a.id) := by
      rw [List.map_map]
      rfl
    rw [hpath]

/-- C5: a predecessor id that matches no activity never causes an error and
behaves exactly as if it were absent: `calculate_cpm` on the collection with
the dangling id erased from every predecessor list returns the same result,
record for record (the erased lists aside). In particular the dangling
dependency contributes 0 to the forward-pass maximum and is never found as
a successor in the backward pass. -/
theorem dangling_pred_ignored (s : List Activity) (p : Int)
    (hd : ∀ a ∈ s, a.id ≠ p) (hc : ∃ a ∈ s, p ∈ a.predecessors) :
    ∃ r, calculate_cpm s = Except.ok r ∧
      calculate_cpm (s.map (scrubPred p)) = Except.ok
        { activities := r.activities.map (scrubPred p)
        , project_duration := r.project_duration
        , critical_path := r.critical_path
        , critical_activities := r.critical_activities.map (scrubPred p) } := by
  have hne : s ≠ [] := by
    obtain ⟨a, ha, _⟩ := hc
    intro h
    subst h
    exact (List.not_mem_nil a) ha
  obtain ⟨r, hr⟩ := cpm_ok_of_ne_nil s hne
  refine ⟨r, hr, ?_⟩
  rw [cpm_scrub p s hd, hr]
  rfl

theorem dangling_pred_ignored_witness :
    ((∀ a ∈ exDangling, a.id ≠ 99) ∧ (∃ a ∈ exDangling, (99:Int) ∈ a.predecessors)) ∧
    (∃ r, calculate_cpm exDangling = Except.ok r ∧
      calculate_cpm (exDangling.map (scrubPred 99)) = Except.ok
        { activities := r.activities.map (scrubPred 99)
        , project_duration := r.project_duration
        , critical_path := r.critical_path
        , critical_activities := r.critical_activities.map (scrubPred 99) }) :=
  ⟨⟨by decide, by decide⟩,
    dangling_pred_ignored exDangling 99 (by decide) (by decide)⟩

/-! ## S-curve lemmas (C8) -/

/-! ## Rounding lemmas -/

theorem roundHalfEven_le_add_one (q : ℚ) : roundHalfEven q ≤ ⌊q⌋ + 1 := by
  simp only [roundHalfEven]
  split_ifs <;> omega

theorem floor_le_roundHalfEven (q : ℚ) : ⌊q⌋ ≤ roundHalfEven q := by
  simp only [roundHalfEven]
  split_ifs <;> omega

theorem roundHalfEven_mono {x y : ℚ} (h : x ≤ y) :
    roundHalfEven x ≤ roundHalfEven y := by
  have hf : ⌊x⌋ ≤ ⌊y⌋ := Int.floor_le_floor h
  by_cases heq : ⌊x⌋ = ⌊y⌋
  · have hr : x - (⌊x⌋ : ℚ) ≤ y - (⌊x⌋ : ℚ) := by linarith
    simp only [roundHalfEven]
    rw [← heq]
    split_ifs <;> first | omega | linarith
  · have h1 : roundHalfEven x ≤ ⌊x⌋ + 1 := roundHalfEven_le_add_one x
    have h2 : ⌊y⌋ ≤ roundHalfEven y := floor_le_roundHalfEven y
    omega

theorem pyRound_mono {x y : ℚ} (h : x ≤ y) (d : Nat) :
    pyRound x d ≤ pyRound y d := by
  unfold pyRound
  have hp : (0:ℚ) < (10:ℚ)^d := by positivity
  have hm : x * (10:ℚ)^d ≤ y * (10:ℚ)^d :=
    mul_le_mul_of_nonneg_right h (le_of_lt hp)
  have hrq : ((roundHalfEven (x * (10:ℚ)^d) : ℚ)) ≤ ((roundHalfEven (y * (10:ℚ)^d) : ℚ)) := by
    exact_mod_cast roundHalfEven_mono hm
  rw [div_eq_mul_inv, div_eq_mul_inv]
  exact mul_le_mul_of_nonneg_right hrq (by positivity)

/-! ## Daily-cost dictionary lemmas -/

theorem dictAdd_ne_nil (m : List (Int × ℚ)) (d : Int) (c : ℚ) :
    dictAdd m d c ≠ [] := by
  unfold dictAdd
  split
  · rename_i hany
    cases m with
    | nil => simp at hany
    | cons x xs => simp
  · simp

theorem dictAdd_keys_nodup (m : List (Int × ℚ)) (d : Int) (c : ℚ)
    (h : (m.map Prod.fst).Nodup) : ((dictAdd m d c).map Prod.fst).Nodup := by
  unfold dictAdd
  split
  · have hk : (m.map (fun p => if p.1 == d then (p.1, p.2 + c) else p)).map Prod.fst
        = m.map Prod.fst := by
      rw [List.map_map]
      apply List.map_congr_left
      intro p _
      show (if p.1 == d then (p.1, p.2 + c) else p).1 = p.1
      split <;> rfl
    rw [hk]
    exact h
  · rename_i hany
    rw [List.map_append, List.nodup_append]
    refine ⟨h, List.nodup_singleton d, ?_⟩
    intro x hx hx2
    have hxd : x = d := by simpa using hx2
    subst hxd
    rw [List.mem_map] at hx
    obtain ⟨p, hp, hpd⟩ := hx
    apply hany
    rw [List.any_eq_true]
    exact ⟨p, hp, by simp [hpd]⟩

theorem sum_map_update (d : Int) (c : ℚ) :
    ∀ m : List (Int × ℚ), (m.map Prod.fst).Nodup →
      m.any (fun p => p.1 == d) = true →
      ((m.map (fun p => if p.1 == d then (p.1, p.2 + c) else p)).map Prod.snd).sum
        = (m.map Prod.snd).sum + c
  | [], _, hany => by simp at hany
  | (k, v) :: rest, hnd, hany => by
    have hnd' : (rest.map Prod.fst).Nodup := (List.nodup_cons.mp hnd).2
    have hknotin : k ∉ rest.map Prod.fst := (List.nodup_cons.mp hnd).1
    by_cases hkd : k = d
    · have hrest : rest.map (fun p => if p.1 == d then (p.1, p.2 + c) else p) = rest := by
        apply map_eq_self_of
        intro p hp
        have hpd : p.1 ≠ d := by
          intro he
          apply hknotin
          rw [hkd, ← he]
          exact List.mem_map_of_mem Prod.fst hp
        simp [hpd]
      have hc1 : ((k, v).1 == d) = true := by simp [hkd]
      simp only [List.map_cons, List.sum_cons]
      rw [hrest]
      simp only [hc1, if_true]
      show v + c + (rest.map Prod.snd).sum = v + (rest.map Prod.snd).sum + c
      ring
    · have hany' : rest.any (fun p => p.1 == d) = true := by
        simp only [List.any_cons, Bool.or_eq_true] at hany
        rcases hany with h | h
        · exact absurd (by simpa using h) hkd
        · exact h
      have hc1 : ((k, v).1 == d) = false := by simp [hkd]
      simp only [List.map_cons, List.sum_cons]
      rw [sum_map_update d c rest hnd' hany']
      simp only [hc1, if_false]
      show v + ((rest.map Prod.snd).sum + c) = v + (rest.map Prod.snd).sum + c
      ring

theorem dictAdd_sum (m : List (Int × ℚ)) (d : Int) (c : ℚ)
    (hnd : (m.map Prod.fst).Nodup) :
    ((dictAdd m d c).map Prod.snd).sum = (m.map Prod.snd).sum + c := by
  unfold dictAdd
  split
  · rename_i hany
    exact sum_map_update d c m hnd hany
  · rw [List.map_append, List.sum_append]
    simp

theorem dictAdd_vals_nonneg (m : List (Int × ℚ)) (d : Int) (c : ℚ)
    (hm : ∀ x ∈ m.map Prod.snd, 0 ≤ x) (hc : 0 ≤ c) :
    ∀ x ∈ (dictAdd m d c).map Prod.snd, 0 ≤ x := by
  intro x hx
  unfold dictAdd at hx
  split at hx
  · rw [List.map_map, List.mem_map] at hx
    obtain ⟨p, hp, hpx⟩ := hx
    have hp2 : 0 ≤ p.2 := hm p.2 (List.mem_map_of_mem Prod.snd hp)
    by_cases hpd : (p.1 == d) = true
    · have hb : (Prod.snd ∘ fun p => if p.1 == d then (p.1, p.2 + c) else p) p = p.2 + c := by
        have he : p.1 = d := by simpa using hpd
        simp [he]
      rw [hb] at hpx
      rw [← hpx]
      linarith
    · have hb : (Prod.snd ∘ fun p => if p.1 == d then (p.1, p.2 + c) else p) p = p.2 := by
        have he : ¬ p.1 = d := by simpa using hpd
        simp [he]
      rw [hb] at hpx
      rw [← hpx]
      exact hp2
  · rw [List.map_append, List.mem_append] at hx
    rcases hx with h | h
    · exact hm x h
    · have hxc : x = c := by simpa using h
      rw [hxc]
      exact hc

theorem addActivityDays_zero (m : List (Int × ℚ)) (astart : Int) (cpd : ℚ) :
    addActivityDays m astart cpd 0 = m := rfl

theorem addActivityDays_eq (m : List (Int × ℚ)) (astart : Int) (cpd : ℚ) (days : Nat) :
    addActivityDays m astart cpd days
      = ((List.range days).map (fun day : Nat => (day : Int))).foldl
          (fun acc day => dictAdd acc (astart + day) cpd) m := by
  unfold addActivityDays
  congr 1
  rw [List.map_eq_flatMap]
  rfl

theorem addActivityDays_succ (m : List (Int × ℚ)) (astart : Int) (cpd : ℚ) (n : Nat) :
    addActivityDays m astart cpd (n + 1)
      = dictAdd (addActivityDays m astart cpd n) (astart + n) cpd := by
  rw [addActivityDays_eq, addActivityDays_eq, List.range_succ, List.map_append,
      List.foldl_append, List.map_singleton, List.foldl_cons, List.foldl_nil]

theorem addActivityDays_keys_nodup (astart : Int) (cpd : ℚ) :
    ∀ (days : Nat) (m : List (Int × ℚ)), (m.map Prod.fst).Nodup →
      ((addActivityDays m astart cpd days).map Prod.fst).Nodup
  | 0, _, h => h
  | n + 1, m, h => by
    rw [addActivityDays_succ]
    exact dictAdd_keys_nodup _ _ _ (addActivityDays_keys_nodup astart cpd n m h)

theorem addActivityDays_sum (astart : Int) (cpd : ℚ) :
    ∀ (days : Nat) (m : List (Int × ℚ)), (m.map Prod.fst).Nodup →
      ((addActivityDays m astart cpd days).map Prod.snd).sum
        = (m.map Prod.snd).sum + (days : ℚ) * cpd
  | 0, m, _ => by simp [addActivityDays_zero]
  | n + 1, m, h => by
    rw [addActivityDays_succ,
        dictAdd_sum _ _ _ (addActivityDays_keys_nodup astart cpd n m h),
        addActivityDays_sum astart cpd n m h]
    push_cast
    ring

theorem addActivityDays_vals_nonneg (astart : Int) (cpd : ℚ) (hc : 0 ≤ cpd) :
    ∀ (days : Nat) (m : List (Int × ℚ)), (∀ x ∈ m.map Prod.snd, 0 ≤ x) →
      ∀ x ∈ (addActivityDays m astart cpd days).map Prod.snd, 0 ≤ x
  | 0, _, h => h
  | n + 1, m, h => by
    rw [addActivityDays_succ]
    exact dictAdd_vals_nonneg _ _ _
      (addActivityDays_vals_nonneg astart cpd hc n m h) hc

theorem addActivityDays_ne_nil (m : List (Int × ℚ)) (astart : Int) (cpd : ℚ)
    (days : Nat) (hd : 1 ≤ days) : addActivityDays m astart cpd days ≠ [] := by
  cases days with
  | zero => omega
  | succ n =>
    rw [addActivityDays_succ]
    exact dictAdd_ne_nil _ _ _

theorem toNat_cast_rat (d : Int) (h : 1 ≤ d) : ((d.toNat : Nat) : ℚ) = (d : ℚ) := by
  have h0 : (d.toNat : Int) = d := Int.toNat_of_nonneg (by omega)
  exact_mod_cast congrArg (fun z : Int => (z : ℚ)) h0

theorem act_contrib (a : SActivity) (hd : 1 ≤ a.duration) :
    ((a.duration.toNat : Nat) : ℚ) * (a.cost / (a.duration : ℚ)) = a.cost := by
  rw [toNat_cast_rat a.duration hd]
  have hz : ((a.duration : ℚ)) ≠ 0 := by
    have h0 : (0 : ℚ) < ((a.duration : ℚ)) := by
      exact_mod_cast (by omega : (0 : Int) < a.duration)
    linarith
  rw [mul_comm, div_mul_cancel₀ _ hz]

theorem dailyCosts_fold_keys_nodup (start : Int) :
    ∀ (acts : List SActivity) (m : List (Int × ℚ)), (m.map Prod.fst).Nodup →
      ((acts.foldl (fun m a =>
          addActivityDays m (start + a.early_start) (a.cost / (a.duration : ℚ))
            a.duration.toNat) m).map Prod.fst).Nodup
  | [], _, h => h
  | a :: rest, m, h => by
    rw [List.foldl_cons]
    exact dailyCosts_fold_keys_nodup start rest _
      (addActivityDays_keys_nodup _ _ _ _ h)

theorem dailyCosts_keys_nodup (acts : List SActivity) (start : Int) :
    ((dailyCosts acts start).map Prod.fst).Nodup :=
  dailyCosts_fold_keys_nodup start acts [] (by simp)

theorem dailyCosts_fold_sum (start : Int) :
    ∀ (acts : List SActivity) (m : List (Int × ℚ)),
      (∀ a ∈ acts, 1 ≤ a.duration) → (m.map Prod.fst).Nodup →
      ((acts.foldl (fun m a =>
          addActivityDays m (start + a.early_start) (a.cost / (a.duration : ℚ))
            a.duration.toNat) m).map Prod.snd).sum
        = (m.map Prod.snd).sum + (acts.map (fun a => a.cost)).sum
  | [], _, _, _ => by simp
  | a :: rest, m, hdur, hnd => by
    rw [List.foldl_cons,
        dailyCosts_fold_sum start rest _
          (fun b hb => hdur b (List.mem_cons_of_mem a hb))
          (addActivityDays_keys_nodup _ _ _ _ hnd),
        addActivityDays_sum _ _ _ _ hnd,
        act_contrib a (hdur a (List.mem_cons_self a rest))]
    simp only [List.map_cons, List.sum_cons]
    ring

theorem dailyCosts_sum (acts : List SActivity) (start : Int)
    (hdur : ∀ a ∈ acts, 1 ≤ a.duration) :
    ((dailyCosts acts start).map Prod.snd).sum = (acts.map (fun a => a.cost)).sum := by
  have h := dailyCosts_fold_sum start acts [] hdur (by simp)
  simpa using h

theorem dailyCosts_fold_vals_nonneg (start : Int) :
    ∀ (acts : List SActivity) (m : List (Int × ℚ)),
      (∀ a ∈ acts, 0 ≤ a.cost) → (∀ a ∈ acts, 1 ≤ a.duration) →
      (∀ x ∈ m.map Prod.snd, 0 ≤ x) →
      ∀ x ∈ ((acts.foldl (fun m a =>
          addActivityDays m (start + a.early_start) (a.cost / (a.duration : ℚ))
            a.duration.toNat) m)).map Prod.snd, 0 ≤ x
  | [], _, _, _, hm => hm
  | a :: rest, m, hc, hd, hm => by
    rw [List.foldl_cons]
    have hcpd : 0 ≤ a.cost / ((a.duration : ℚ)) := by
      apply div_nonneg (hc a (List.mem_cons_self a rest))
      have h1 : (1 : Int) ≤ a.duration := hd a (List.mem_cons_self a rest)
      exact_mod_cast (by omega : (0 : Int) ≤ a.duration)
    exact dailyCosts_fold_vals_nonneg start rest _
      (fun b hb => hc b (List.mem_cons_of_mem a hb))
      (fun b hb => hd b (List.mem_cons_of_mem a hb))
      (addActivityDays_vals_nonneg _ _ hcpd _ m hm)

theorem dailyCosts_vals_nonneg (acts : List SActivity) (start : Int)
    (hc : ∀ a ∈ acts, 0 ≤ a.cost) (hd : ∀ a ∈ acts, 1 ≤ a.duration) :
    ∀ x ∈ (dailyCosts acts start).map Prod.snd, 0 ≤ x :=
  dailyCosts_fold_vals_nonneg start acts [] hc hd (by intro x hx; simp at hx)

theorem dailyCosts_fold_ne_nil (start : Int) :
    ∀ (acts : List SActivity) (m : List (Int × ℚ)),
      (∀ a ∈ acts, 1 ≤ a.duration) → acts ≠ [] →
      (acts.foldl (fun m a =>
          addActivityDays m (start + a.early_start) (a.cost / (a.duration : ℚ))
            a.duration.toNat) m) ≠ []
  | [], _, _, hne => absurd rfl hne
  | [a], m, hd, _ => by
    rw [List.foldl_cons, List.foldl_nil]
    apply addActivityDays_ne_nil
    have h1 : (1 : Int) ≤ a.duration := hd a (List.mem_cons_self a [])
    omega
  | a :: b :: rest, m, hd, _ => by
    rw [List.foldl_cons]
    exact dailyCosts_fold_ne_nil start (b :: rest) _
      (fun x hx => hd x (List.mem_cons_of_mem a hx)) (by simp)

theorem dailyCosts_ne_nil (acts : List SActivity) (start : Int)
    (hd : ∀ a ∈ acts, 1 ≤ a.duration) (hne : acts ≠ []) :
    dailyCosts acts start ≠ [] :=
  dailyCosts_fold_ne_nil start acts [] hd hne

theorem lookup_getD_nonneg : ∀ (m : List (Int × ℚ)) (k : Int),
    (∀ x ∈ m.map Prod.snd, 0 ≤ x) → 0 ≤ ((m.lookup k).getD 0)
  | [], _, _ => le_refl 0
  | (a, b) :: rest, k, h => by
    rw [List.lookup_cons]
    by_cases hak : (k == a) = true
    · simp only [hak]
      exact h b (by simp)
    · have hak' : (k == a) = false := by
        rwa [Bool.not_eq_true] at hak
      simp only [hak']
      exact lookup_getD_nonneg rest k (fun x hx => h x (List.mem_cons_of_mem _ hx))

theorem sum_lookup_keys : ∀ (m : List (Int × ℚ)), (m.map Prod.fst).Nodup →
    ((m.map Prod.fst).map (fun k => ((m.lookup k).getD 0))).sum = (m.map Prod.snd).sum
  | [], _ => rfl
  | (a, b) :: rest, hnd => by
    have hnd' : (rest.map Prod.fst).Nodup := (List.nodup_cons.mp hnd).2
    have hnotin : a ∉ rest.map Prod.fst := (List.nodup_cons.mp hnd).1
    simp only [List.map_cons, List.sum_cons]
    have hhead : ((((a, b) :: rest).lookup a)).getD 0 = b := by
      rw [List.lookup_cons]
      simp
    have htail : (rest.map Prod.fst).map (fun k => ((((a, b) :: rest).lookup k)).getD 0)
        = (rest.map Prod.fst).map (fun k => ((rest.lookup k).getD 0)) := by
      apply List.map_congr_left
      intro k hk
      have hka : (k == a) = false := by
        rw [beq_eq_false_iff_ne]
        intro he
        exact hnotin (he ▸ hk)
      show ((((a, b) :: rest).lookup k)).getD 0 = ((rest.lookup k)).getD 0
      rw [List.lookup_cons]
      simp only [hka]
    rw [hhead, htail, sum_lookup_keys rest hnd']

theorem sortedKeys_pairwise_lt (l : List Int) (hnd : l.Nodup) :
    (l.mergeSort (fun a b => decide (a ≤ b))).Pairwise (fun a b => a < b) := by
  have htrans : ∀ a b c : Int, (fun a b : Int => decide (a ≤ b)) a b
      → (fun a b : Int => decide (a ≤ b)) b c → (fun a b : Int => decide (a ≤ b)) a c := by
    intro a b c hab hbc
    simp only [decide_eq_true_eq] at hab hbc ⊢
    omega
  have htotal : ∀ a b : Int, ((fun a b : Int => decide (a ≤ b)) a b
      || (fun a b : Int => decide (a ≤ b)) b a) = true := by
    intro a b
    simp only [Bool.or_eq_true, decide_eq_true_eq]
    omega
  have hle := List.sorted_mergeSort htrans htotal l
  have hnd2 : (l.mergeSort (fun a b => decide (a ≤ b))).Nodup :=
    (List.mergeSort_perm l (fun a b => decide (a ≤ b))).symm.nodup hnd
  refine List.Pairwise.imp₂ ?_ hle hnd2
  intro a b h1 h2
  have h1' : a ≤ b := by simpa using h1
  omega

theorem sCurveLoop_cons (d : Int) (rest : List Int) (m : List (Int × ℚ)) (cum total : ℚ) :
    sCurveLoop (d :: rest) m cum total
      = { date := d
        , daily_cost := pyRound ((m.lookup d).getD 0) 2
        , cumulative_cost := pyRound (cum + (m.lookup d).getD 0) 2
        , percentage := pyRound (if 0 < total
            then (cum + (m.lookup d).getD 0) / total * 100 else 0) 2 }
        :: sCurveLoop rest m (cum + (m.lookup d).getD 0) total := rfl

theorem sCurveLoop_dates : ∀ (ks : List Int) (m : List (Int × ℚ)) (cum total : ℚ),
    (sCurveLoop ks m cum total).map (fun pt => pt.date) = ks
  | [], _, _, _ => rfl
  | d :: rest, m, cum, total => by
    rw [sCurveLoop_cons, List.map_cons, sCurveLoop_dates rest m _ total]

theorem sCurveLoop_cum : ∀ (ks : List Int) (m : List (Int × ℚ)) (cum total : ℚ),
    (∀ k ∈ ks, 0 ≤ ((m.lookup k).getD 0)) →
    (List.Chain' (fun a b => a ≤ b)
      ((sCurveLoop ks m cum total).map (fun pt => pt.cumulative_cost)) ∧
     ∀ v ∈ (sCurveLoop ks m cum total).map (fun pt => pt.cumulative_cost),
       pyRound cum 2 ≤ v)
  | [], _, _, _, _ => ⟨List.chain'_nil, by intro v hv; simp [sCurveLoop] at hv⟩
  | d :: rest, m, cum, total, h => by
    have hd0 : 0 ≤ ((m.lookup d).getD 0) := h d (List.mem_cons_self d rest)
    have hcum : cum ≤ cum + ((m.lookup d).getD 0) := by linarith
    obtain ⟨ih1, ih2⟩ := sCurveLoop_cum rest m (cum + ((m.lookup d).getD 0)) total
      (fun k hk => h k (List.mem_cons_of_mem d hk))
    rw [sCurveLoop_cons, List.map_cons]
    constructor
    · rw [List.chain'_cons']
      refine ⟨?_, ih1⟩
      intro y hy
      exact ih2 y (List.mem_of_mem_head? hy)
    · intro v hv
      rcases List.mem_cons.mp hv with hv | hv
    
      · rw [hv]
        exact pyRound_mono hcum 2
      · calc pyRound cum 2
            ≤ pyRound (cum + ((m.lookup d).getD 0)) 2 := pyRound_mono hcum 2
          _ ≤ v := ih2 v hv

theorem getLast?_cons_of_some {α : Type} (x : α) (l : List α) (y : α)
    (h : l.getLast? = some y) : (x :: l).getLast? = some y := by
  cases l with
  | nil => simp at h
  | cons a as =>
    rw [List.getLast?_cons_cons]
    exact h

theorem sCurveLoop_last : ∀ (ks : List Int) (m : List (Int × ℚ)) (cum total : ℚ),
    ks ≠ [] →
    ((sCurveLoop ks m cum total).getLast?).map (fun pt => pt.cumulative_cost)
      = some (pyRound (cum + (ks.map (fun k => ((m.lookup k).getD 0))).sum) 2)
  | [], _, _, _, hne => absurd rfl hne
  | [d], m, cum, total, _ => by
    rw [sCurveLoop_cons]
    show some (pyRound (cum + (m.lookup d).getD 0) 2)
      = some (pyRound (cum + (([d].map (fun k => ((m.lookup k).getD 0))).sum)) 2)
    simp
  | d :: e :: rest, m, cum, total, _ => by
    have ih := sCurveLoop_last (e :: rest) m (cum + ((m.lookup d).getD 0)) total (by simp)
    rw [Option.map_eq_some'] at ih
    obtain ⟨pt, hpt, hptv⟩ := ih
    have hptv' : pt.cumulative_cost
        = pyRound ((cum + ((m.lookup d).getD 0))
            + (((e :: rest).map (fun k => ((m.lookup k).getD 0))).sum)) 2 := hptv
    rw [sCurveLoop_cons, getLast?_cons_of_some _ _ pt hpt]
    show some pt.cumulative_cost
      = some (pyRound (cum + (((d :: e :: rest).map (fun k => ((m.lookup k).getD 0))).sum)) 2)
    have harg : cum + (((d :: e :: rest).map (fun k => ((m.lookup k).getD 0))).sum)
        = (cum + ((m.lookup d).getD 0))
            + (((e :: rest).map (fun k => ((m.lookup k).getD 0))).sum) := by
      simp only [List.map_cons, List.sum_cons]
      ring
    rw [hptv', harg]

/-- **C8**: for positive costs and durations at least 1, `calculate_s_curve`
returns a series with strictly increasing date keys and non-decreasing
cumulative costs, whose final cumulative cost is the sum of the activity
costs rounded to 2 decimals. -/
theorem s_curve_props (acts : List SActivity) (start : Int)
    (hc : ∀ a ∈ acts, 0 < a.cost) (hd : ∀ a ∈ acts, 1 ≤ a.duration) :
    (((calculate_s_curve acts start).map (fun pt => pt.date)).Pairwise
        (fun a b => a < b) ∧
      List.Chain' (fun a b => a ≤ b)
        ((calculate_s_curve acts start).map (fun pt => pt.cumulative_cost)) ∧
      (acts ≠ [] →
        ((calculate_s_curve acts start).getLast?).map (fun pt => pt.cumulative_cost)
          = some (pyRound ((acts.map (fun a => a.cost)).sum) 2))) := by
  have hnd : ((dailyCosts acts start).map Prod.fst).Nodup :=
    dailyCosts_keys_nodup acts start
  have hvn : ∀ x ∈ (dailyCosts acts start).map Prod.snd, 0 ≤ x :=
    dailyCosts_vals_nonneg acts start (fun a ha => le_of_lt (hc a ha)) hd
  have hcs : calculate_s_curve acts start
      = sCurveLoop
          (((dailyCosts acts start).map Prod.fst).mergeSort (fun a b => decide (a ≤ b)))
          (dailyCosts acts start) 0 (acts.foldl (fun t a => t + a.cost) 0) := rfl
  rw [hcs]
  refine ⟨?_, ?_, ?_⟩
  · rw [sCurveLoop_dates]
    exact sortedKeys_pairwise_lt _ hnd
  · exact (sCurveLoop_cum _ _ 0 _
      (fun k _ => lookup_getD_nonneg (dailyCosts acts start) k hvn)).1
  · intro hne
    have hkne : (dailyCosts acts start).map Prod.fst ≠ [] := by
      intro h0
      exact dailyCosts_ne_nil acts start hd hne (List.map_eq_nil_iff.mp h0)
    have hsne : ((dailyCosts acts start).map Prod.fst).mergeSort
        (fun a b => decide (a ≤ b)) ≠ [] := by
      intro h0
      apply hkne
      have hp := List.mergeSort_perm ((dailyCosts acts start).map Prod.fst)
        (fun a b => decide (a ≤ b))
      rw [h0] at hp
      exact (hp.symm).eq_nil
    rw [sCurveLoop_last _ _ 0 _ hsne]
    have hs1 : ((((dailyCosts acts start).map Prod.fst).mergeSort
          (fun a b => decide (a ≤ b))).map
            (fun k => (((dailyCosts acts start).lookup k).getD 0))).sum
        = (((dailyCosts acts start).map Prod.fst).map
            (fun k => (((dailyCosts acts start).lookup k).getD 0))).sum :=
      ((List.mergeSort_perm _ _).map _).sum_eq
    rw [zero_add, hs1, sum_lookup_keys _ hnd, dailyCosts_sum acts start hd]

/-- **C8 counterexample**: on the one-activity input `exS` (cost `1/1000`,
duration 1) the hypotheses of the claim hold, yet the final cumulative cost
of the S-curve is `0`, not the exact cost sum `1/1000`: the code rounds each
cumulative value to 2 decimals. -/
theorem s_curve_not_conserving :
    (∀ a ∈ exS, 0 < a.cost) ∧ (∀ a ∈ exS, 1 ≤ a.duration) ∧
      ((calculate_s_curve exS 0).getLast?).map (fun pt => pt.cumulative_cost)
        ≠ some ((exS.map (fun a => a.cost)).sum) :=
  ⟨of_decide_eq_true (by with_unfolding_all rfl), by decide,
    of_decide_eq_true (by with_unfolding_all rfl)⟩

/-- Witness for `s_curve_props` at the concrete input `exS`. -/
theorem s_curve_props_witness :
    (∀ a ∈ exS, 0 < a.cost) ∧ (∀ a ∈ exS, 1 ≤ a.duration) ∧
      ((((calculate_s_curve exS 0).map (fun pt => pt.date)).Pairwise
          (fun a b => a < b) ∧
        List.Chain' (fun a b => a ≤ b)
          ((calculate_s_curve exS 0).map (fun pt => pt.cumulative_cost)) ∧
        (exS ≠ [] →
          ((calculate_s_curve exS 0).getLast?).map (fun pt => pt.cumulative_cost)
            = some (pyRound ((exS.map (fun a => a.cost)).sum) 2)))) := by
  have h1 : ∀ a ∈ exS, 0 < a.cost := of_decide_eq_true (by with_unfolding_all rfl)
  have h2 : ∀ a ∈ exS, 1 ≤ a.duration := by decide
  exact ⟨h1, h2, s_curve_props exS 0 h1 h2⟩
